import Mathlib

/-! # `pkg/middleware`: the object-transformation dispatcher

A shallow embedding of `pkg/middleware/middleware.go` (`Process`, `UpsertContainerEnv`,
`FlattenSecret`) and the properties of it that the specification states.

Conventions of the embedding:

* a Go pointer argument that is mutated in place becomes explicit state passing: `Process`
  returns a `Call`, holding the state of the caller's object after the call together with
  what the call returned (an object, an error, or a run-time panic);
* a Go map is a `GoMap`: either the nil map or a list of entries in the order in which a
  `range` over the map visits them;
* Kubernetes library values (`resource.Quantity`, `intstr.IntOrString`, YAML) are carried
  with the operations the middleware calls on them.
-/

namespace Middleware

/-! ## Go strings and maps -/

/-- Byte payload (`[]byte`) of a secret key, carried as text. -/
abbrev Bytes := String

/-- Go `strings.HasSuffix`. -/
def HasSuffix (s suffix : String) : Bool := suffix.data.isSuffixOf s.data

/-- Go `strings.HasPrefix`. -/
def HasPrefix (s pre : String) : Bool := pre.data.isPrefixOf s.data

/-- Go `strings.Contains`. -/
def Contains (s substr : String) : Bool := decide (substr.data <:+: s.data)

/-- Go `strings.Join`. -/
def Join (elems : List String) (sep : String) : String := sep.intercalate elems

/-- Go `map[string]β`. `nil` is the nil map (reads and deletes are allowed, an assignment
panics); `entries l` is an allocated map whose `range` visits `l` in order. -/
inductive GoMap (β : Type) where
  | nil
  | entries (l : List (String × β))
  deriving DecidableEq, Repr

namespace GoMap

variable {β : Type}

/-- The entries of the map in `range` order (none for the nil map). -/
def toList : GoMap β → List (String × β)
  | nil => []
  | entries l => l

/-- Comma-ok read `v, ok := m[k]`. -/
def lookup (m : GoMap β) (k : String) : Option β :=
  (m.toList.find? (fun kv => kv.1 = k)).map (fun kv => kv.2)

/-- Whether `k` is a key of the map. -/
def hasKey (m : GoMap β) (k : String) : Bool := (m.lookup k).isSome

/-- Go `delete(m, k)`; a no-op on the nil map. -/
def delete : GoMap β → String → GoMap β
  | nil, _ => nil
  | entries l, k => entries (l.filter (fun kv => kv.1 ≠ k))

/-- Replace the value under `k` where it stands, or add the pair. -/
def setEntry : List (String × β) → String → β → List (String × β)
  | [], k, v => [(k, v)]
  | kv :: rest, k, v => if kv.1 = k then (k, v) :: rest else kv :: setEntry rest k v

/-- Go `m[k] = v`; `none` is the panic "assignment to entry in nil map". -/
def set : GoMap β → String → β → Option (GoMap β)
  | nil, _, _ => none
  | entries l, k, v => some (entries (setEntry l k v))

end GoMap

/-- `labels.Set(m).Get(label)`: the value under the label, the empty string when absent. -/
def labelsGet (m : GoMap String) (label : String) : String := (m.lookup label).getD ""

/-- What a Go call gives back: a value with a nil error, a non-nil error, or a panic. -/
inductive Outcome (α : Type) where
  | ok (val : α)
  | error (msg : String)
  | panic
  deriving DecidableEq, Repr

/-! ## Kubernetes library values -/

/-- Kubernetes `resource.Quantity`: the number it denotes and its canonical text. -/
structure Quantity where
  value : ℚ
  text : String
  deriving DecidableEq

/-- Numeric three-way comparison `q.Cmp(y)`. -/
def Quantity.Cmp (q y : Quantity) : Int :=
  if q.value < y.value then -1 else if q.value = y.value then 0 else 1

/-- Canonical text `q.String()`. -/
def Quantity.String (q : Quantity) : String := q.text

/-- `corev1.ResourceList`. -/
abbrev ResourceList := GoMap Quantity

/-- `corev1.ResourceStorage`. -/
def ResourceStorage : String := "storage"

/-- `ResourceList.Storage()`: a pointer to a copy of the `storage` entry, or to a zero
quantity when the list has none. The pointer is never nil. -/
def ResourceList.Storage (rl : ResourceList) : Option Quantity :=
  match rl.lookup ResourceStorage with
  | some val => some val
  | none => some { value := 0, text := "0" }

/-- `corev1.ResourceRequirements`. -/
structure ResourceRequirements where
  Limits : ResourceList
  Requests : ResourceList
  deriving DecidableEq

/-- The zero value `var noresources corev1.ResourceRequirements`. -/
def noresources : ResourceRequirements := { Limits := GoMap.nil, Requests := GoMap.nil }

/-- `corev1.EnvVar`. -/
structure EnvVar where
  Name : String
  Value : String
  ValueFrom : Option String
  deriving DecidableEq, Repr

/-- `corev1.Container`. -/
structure Container where
  Name : String
  Env : List EnvVar
  Resources : ResourceRequirements
  deriving DecidableEq

/-- `corev1.PodSpec`. -/
structure PodSpec where
  InitContainers : List Container
  Containers : List Container
  deriving DecidableEq

/-- `corev1.PodTemplateSpec`. -/
structure PodTemplateSpec where
  Annotations : GoMap String
  Spec : PodSpec
  deriving DecidableEq

/-- `metav1.ObjectMeta`. -/
structure ObjectMeta where
  Name : String
  Labels : GoMap String
  Annotations : GoMap String
  deriving DecidableEq

/-- `intstr.Type`. -/
inductive IntOrStringType where
  | Int
  | String
  deriving DecidableEq, Repr

/-- `intstr.IntOrString`; `Kind` is its field `Type`. -/
structure IntOrString where
  Kind : IntOrStringType
  IntVal : Int
  StrVal : String
  deriving DecidableEq, Repr

/-- Value of a decimal digit. -/
def digitVal (c : Char) : Option Nat :=
  if '0' ≤ c ∧ c ≤ '9' then some (c.toNat - '0'.toNat) else none

/-- Value of a run of decimal digits, `none` when some character is not a digit. -/
def parseDigits : List Char → Nat → Option Nat
  | [], acc => some acc
  | c :: cs, acc =>
    match digitVal c with
    | some d => parseDigits cs (10 * acc + d)
    | none => none

/-- Go `strconv.Atoi`: an optional sign and at least one decimal digit, within `int` (64 bits). -/
def Atoi (s : String) : Option Int :=
  let signed : Bool × List Char :=
    match s.data with
    | '+' :: ds => (false, ds)
    | '-' :: ds => (true, ds)
    | ds => (false, ds)
  if signed.2 = [] then none
  else
    match parseDigits signed.2 0 with
    | none => none
    | some n =>
      let v : Int := if signed.1 then -(n : Int) else (n : Int)
      if -(2 ^ 63 : Int) ≤ v ∧ v < (2 ^ 63 : Int) then some v else none

/-- `intstr.FromInt`: the value converted to `int32`. -/
def FromInt (val : Int) : IntOrString :=
  { Kind := IntOrStringType.Int, IntVal := (val + 2 ^ 31) % 2 ^ 32 - 2 ^ 31, StrVal := "" }

/-- `intstr.FromString`. -/
def FromString (val : String) : IntOrString :=
  { Kind := IntOrStringType.String, IntVal := 0, StrVal := val }

/-- `intstr.Parse`. -/
def Parse (val : String) : IntOrString :=
  match Atoi val with
  | some i => FromInt i
  | none => FromString val

/-- `route.TLSTerminationPassthrough`. -/
def TLSTerminationPassthrough : String := "passthrough"

/-- `route.InsecureEdgeTerminationPolicyRedirect`. -/
def InsecureEdgeTerminationPolicyRedirect : String := "Redirect"

/-- `route.TLSConfig`. -/
structure TLSConfig where
  Termination : String
  Certificate : String
  Key : String
  CACertificate : String
  DestinationCACertificate : String
  InsecureEdgeTerminationPolicy : String
  deriving DecidableEq, Repr

/-- `route.RoutePort`. -/
structure RoutePort where
  TargetPort : IntOrString
  deriving DecidableEq, Repr

/-- `route.RouteSpec`: the two pointer fields the middleware writes. -/
structure RouteSpec where
  TLS : Option TLSConfig
  Port : Option RoutePort
  deriving DecidableEq

/-! ## The managed objects -/

/-- `corev1.Secret`. -/
structure Secret where
  ObjectMeta : ObjectMeta
  Data : GoMap Bytes
  deriving DecidableEq

/-- `appsv1.DeploymentSpec`; `Replicas` is a `*int32`. -/
structure DeploymentSpec where
  Replicas : Option Int
  Template : PodTemplateSpec
  deriving DecidableEq

/-- `appsv1.Deployment`. -/
structure Deployment where
  ObjectMeta : ObjectMeta
  Spec : DeploymentSpec
  deriving DecidableEq

/-- `corev1.PersistentVolumeClaimSpec`, with its `Resources`. -/
structure PersistentVolumeClaimSpec where
  Resources : ResourceRequirements
  deriving DecidableEq

/-- `corev1.PersistentVolumeClaim`. -/
structure PersistentVolumeClaim where
  ObjectMeta : ObjectMeta
  Spec : PersistentVolumeClaimSpec
  deriving DecidableEq

/-- `batchv1.JobSpec`. -/
structure JobSpec where
  Template : PodTemplateSpec
  deriving DecidableEq

/-- `batchv1.Job`. -/
structure Job where
  ObjectMeta : ObjectMeta
  Spec : JobSpec
  deriving DecidableEq

/-- `route.Route`. -/
structure Route where
  ObjectMeta : ObjectMeta
  Spec : RouteSpec
  deriving DecidableEq

/-- A `client.Object` by concrete type; `Other` is any kind the middleware has no rule for. -/
inductive Object where
  | Secret (s : Secret)
  | Deployment (d : Deployment)
  | PersistentVolumeClaim (p : PersistentVolumeClaim)
  | Job (j : Job)
  | Route (r : Route)
  | Other (m : ObjectMeta)
  deriving DecidableEq

/-- `meta.Accessor(obj)`: every `client.Object` has object metadata, so it does not fail. -/
def Object.objectMeta : Object → ObjectMeta
  | Object.Secret s => s.ObjectMeta
  | Object.Deployment d => d.ObjectMeta
  | Object.PersistentVolumeClaim p => p.ObjectMeta
  | Object.Job j => j.ObjectMeta
  | Object.Route r => r.ObjectMeta
  | Object.Other m => m

/-! ## The deployment intent (`apis/quay/v1`) -/

/-- `v1.ComponentKind`, a string type: `v1.ComponentKind(component)` converts any string. -/
abbrev ComponentKind := String

/-- Modelled from the spec: the constant `v1.ComponentQuay` (component kind Quay), declared in
`apis/quay/v1`. -/
def ComponentQuay : ComponentKind := "quay"

/-- Modelled from the spec: the constant `v1.ComponentClair` (component kind Clair), declared in
`apis/quay/v1`. -/
def ComponentClair : ComponentKind := "clair"

/-- Modelled from the spec: the constant `v1.ComponentMirror` (component kind Mirror), declared
in `apis/quay/v1`. -/
def ComponentMirror : ComponentKind := "mirror"

/-- Modelled from the spec: the constant `v1.ComponentPostgres` (component kind Postgres),
declared in `apis/quay/v1`. -/
def ComponentPostgres : ComponentKind := "postgres"

/-- Modelled from the spec: the constant `v1.ComponentHPA` (component kind HPA), declared in
`apis/quay/v1`. -/
def ComponentHPA : ComponentKind := "horizontalpodautoscaler"

/-- Modelled from the spec: the constant `v1.ComponentTLS` (component kind TLS), declared in
`apis/quay/v1`. -/
def ComponentTLS : ComponentKind := "tls"

/-- Modelled from the spec: the deployment intent `*v1.QuayRegistry`, seen through the five
helpers of `apis/quay/v1` that `Process` calls on it: which components are managed (a
membership test), the per-component environment overrides (an ordered sequence), the
per-component replica override (optional), the per-component volume-size override (optional),
and the derivation of the managed field-group names, which can fail. -/
structure QuayRegistry where
  ComponentIsManaged : ComponentKind → Bool
  GetEnvOverrideForComponent : ComponentKind → List EnvVar
  GetReplicasOverrideForComponent : ComponentKind → Option Int
  GetVolumeSizeOverrideForComponent : ComponentKind → Option Quantity
  FieldGroupNamesForManagedComponents : Except String (List String)

/-- The library `sigs.k8s.io/yaml` on values of type `V`: `Unmarshal` into a fresh
`map[string]interface{}` variable (which stays nil for an empty or `null` document) and
`Marshal` of such a map. -/
structure YAML (V : Type) where
  Unmarshal : Bytes → Except String (GoMap V)
  Marshal : GoMap V → Except String Bytes

/-! ## `pkg/middleware/middleware.go` -/

/-- The constant `configSecretPrefix`. -/
def configSecretPrefix : String := "quay-config-secret"

/-- The constant `fieldGroupsAnnotation`. -/
def fieldGroupsAnnotation : String := "quay-managed-fieldgroups"

/-- The loop of `UpsertContainerEnv` over `container.Env`: the first entry named as `newv` is
overwritten where it stands and the loop returns; when the loop finds none, `newv` is
appended. -/
def upsertEnv : List EnvVar → EnvVar → List EnvVar
  | [], newv => [newv]
  | origv :: rest, newv =>
    if origv.Name ≠ newv.Name then origv :: upsertEnv rest newv
    else newv :: rest

/-- `UpsertContainerEnv` updates or inserts an environment variable into the container. -/
def UpsertContainerEnv (container : Container) (newv : EnvVar) : Container :=
  { container with Env := upsertEnv container.Env newv }

/-- Inner loop of `FlattenSecret`, `flattenedConfig[configKey] = configValue` for every pair
of a fragment; `none` is the panic of an assignment into a nil `flattenedConfig`. -/
def mergeConfig {V : Type} : GoMap V → List (String × V) → Option (GoMap V)
  | flattenedConfig, [] => some flattenedConfig
  | flattenedConfig, (configKey, configValue) :: rest =>
    match flattenedConfig.set configKey configValue with
    | none => none
    | some merged => mergeConfig merged rest

/-- Outer loop of `FlattenSecret` over `configBundle.Data`: every key containing
`.config.yaml` is parsed, merged into `flattenedConfig` and deleted from the copy's data. -/
def flattenLoop {V : Type} (yaml : YAML V) :
    List (String × Bytes) → GoMap V → GoMap Bytes → Outcome (GoMap V × GoMap Bytes)
  | [], flattenedConfig, data => Outcome.ok (flattenedConfig, data)
  | (key, file) :: rest, flattenedConfig, data =>
    if !Contains key ".config.yaml" then flattenLoop yaml rest flattenedConfig data
    else
      match yaml.Unmarshal file with
      | Except.error err => Outcome.error err
      | Except.ok valueYAML =>
        match mergeConfig flattenedConfig valueYAML.toList with
        | none => Outcome.panic
        | some merged => flattenLoop yaml rest merged (data.delete key)

/-- `FlattenSecret` takes all Quay config fields in the given secret and combines them under
the `config.yaml` key. The argument is deep-copied, so the caller's secret is not written. -/
def FlattenSecret {V : Type} (yaml : YAML V) (configBundle : Secret) : Outcome Secret :=
  let flattenedSecret := configBundle
  match yaml.Unmarshal ((configBundle.Data.lookup "config.yaml").getD "") with
  | Except.error err => Outcome.error err
  | Except.ok flattenedConfig =>
    match flattenLoop yaml configBundle.Data.toList flattenedConfig flattenedSecret.Data with
    | Outcome.error err => Outcome.error err
    | Outcome.panic => Outcome.panic
    | Outcome.ok (merged, data) =>
      match yaml.Marshal merged with
      | Except.error err => Outcome.error err
      | Except.ok flattenedConfigYAML =>
        match data.set "config.yaml" flattenedConfigYAML with
        | none => Outcome.panic
        | some written => Outcome.ok { flattenedSecret with Data := written }

/-- Lines 47-57 of `Process`: the TLS pairs and every `extra_ca_cert_` key are deleted. -/
def stripSecretData (data : GoMap Bytes) : GoMap Bytes :=
  let named := (((data.delete "ssl.cert").delete "ssl.key").delete "clair-ssl.key").delete
    "clair-ssl.crt"
  named.toList.foldl
    (fun acc kv => if HasPrefix kv.1 "extra_ca_cert_" then acc.delete kv.1 else acc) named

/-- The state of the caller's object after a call of `Process` (it is written in place
through the pointer passed in) and what the call returned. -/
structure Call where
  obj : Object
  ret : Outcome Object

/-- The map literal of lines 85-89, component kind to deployment-name suffix. -/
def depSuffixes : List (ComponentKind × String) :=
  [(ComponentClair, "clair-app"), (ComponentMirror, "quay-mirror"), (ComponentQuay, "quay-app")]

/-- The pod template with its container list replaced. -/
def PodTemplateSpec.withContainers (t : PodTemplateSpec) (cs : List Container) :
    PodTemplateSpec :=
  { t with Spec := { t.Spec with Containers := cs } }

/-- Lines 72-77: every override of the component is upserted into every container. -/
def overrideEnv (overrides : List EnvVar) (containers : List Container) : List Container :=
  overrides.foldl (fun cs oenv => cs.map (fun ref => UpsertContainerEnv ref oenv)) containers

/-- Lines 85-113: the loop over the suffix table, visited in the order `order`. -/
def replicasLoop (quay : QuayRegistry) (dep : Deployment) :
    List (ComponentKind × String) → Deployment
  | [] => dep
  | (kind, depsuffix) :: rest =>
    if !HasSuffix dep.ObjectMeta.Name depsuffix then replicasLoop quay dep rest
    else if dep.Spec.Replicas ≠ none then dep
    else
      let desired : Int :=
        match quay.GetReplicasOverrideForComponent kind with
        | some r => r
        | none => 2
      { dep with Spec := { dep.Spec with Replicas := some desired } }

/-- Lines 119-121 and 182-184: the resources of every container are reset. -/
def trimResources (containers : List Container) : List Container :=
  containers.map (fun c => { c with Resources := noresources })

/-- Lines 69-78: the component is read from the `quay-component` annotation; when it is
managed its environment overrides are written into the containers of the pod template. -/
def overrideStage (quay : QuayRegistry) (dep : Deployment) : Deployment :=
  let component := labelsGet dep.ObjectMeta.Annotations "quay-component"
  let kind : ComponentKind := component
  if quay.ComponentIsManaged kind then
    { dep with Spec := { dep.Spec with
        Template := dep.Spec.Template.withContainers
          (overrideEnv (quay.GetEnvOverrideForComponent kind)
            dep.Spec.Template.Spec.Containers) } }
  else dep

/-- Lines 84-114: the replica loop runs unless the autoscaler component is managed. -/
def replicasStage (order : List (ComponentKind × String)) (quay : QuayRegistry)
    (dep : Deployment) : Deployment :=
  if !quay.ComponentIsManaged ComponentHPA then replicasLoop quay dep order else dep

/-- Lines 116-122: with `skipres` the resources of every container are removed. -/
def trimStage (skipres : Bool) (dep : Deployment) : Deployment :=
  if skipres then
    { dep with Spec := { dep.Spec with
        Template := dep.Spec.Template.withContainers
          (trimResources dep.Spec.Template.Spec.Containers) } }
  else dep

/-- The deployment with the annotations of its pod template replaced. -/
def Deployment.withTemplateAnnotations (dep : Deployment) (annotations : GoMap String) :
    Deployment :=
  { dep with Spec := { dep.Spec with
      Template := { dep.Spec.Template with Annotations := annotations } } }

/-- Lines 127-144: the database deployment loses three pod-template annotations and is
returned; any other deployment is returned as it is unless it is the config editor, which
gets the field-group annotation. -/
def annotationStage (quay : QuayRegistry) (dep : Deployment) : Call :=
  if Contains dep.ObjectMeta.Name "quay-database" then
    let annotations := ((dep.Spec.Template.Annotations.delete "quay-registry-hostname").delete
      "quay-buildmanager-hostname").delete "quay-operator-service-endpoint"
    { obj := Object.Deployment (dep.withTemplateAnnotations annotations)
      ret := Outcome.ok (Object.Deployment (dep.withTemplateAnnotations annotations)) }
  else if !Contains dep.ObjectMeta.Name "quay-config-editor" then
    { obj := Object.Deployment dep, ret := Outcome.ok (Object.Deployment dep) }
  else
    match quay.FieldGroupNamesForManagedComponents with
    | Except.error err => { obj := Object.Deployment dep, ret := Outcome.error err }
    | Except.ok fgns =>
      match dep.Spec.Template.Annotations.set fieldGroupsAnnotation (Join fgns ",") with
      | none => { obj := Object.Deployment dep, ret := Outcome.panic }
      | some annotations =>
        { obj := Object.Deployment (dep.withTemplateAnnotations annotations)
          ret := Outcome.ok (Object.Deployment (dep.withTemplateAnnotations annotations)) }

/-- Lines 65-145 of `Process`, the `*appsv1.Deployment` case: the four steps in order, each
on the deployment as the step before left it. -/
def processDeployment (order : List (ComponentKind × String)) (quay : QuayRegistry)
    (dep : Deployment) (skipres : Bool) : Call :=
  annotationStage quay (trimStage skipres (replicasStage order quay (overrideStage quay dep)))

/-- Lines 148-177 of `Process`, the `*corev1.PersistentVolumeClaim` case. -/
def processVolumeClaim (quay : QuayRegistry) (quayComponentLabel : String)
    (pvc : PersistentVolumeClaim) : Call :=
  let override : Option Quantity :=
    if quayComponentLabel = "postgres" then
      quay.GetVolumeSizeOverrideForComponent ComponentPostgres
    else if quayComponentLabel = "clair-postgres" then
      quay.GetVolumeSizeOverrideForComponent ComponentClair
    else none
  match override with
  | none =>
    { obj := Object.PersistentVolumeClaim pvc, ret := Outcome.ok (Object.PersistentVolumeClaim pvc) }
  | some override =>
    let pvcstorage := ResourceList.Storage pvc.Spec.Resources.Requests
    let shrinks : Option Quantity :=
      match pvcstorage with
      | some current => if override.Cmp current = -1 then some current else none
      | none => none
    match shrinks with
    | some current =>
      { obj := Object.PersistentVolumeClaim pvc,
        ret := Outcome.error ("cannot shrink volume override size from " ++ current.String ++
          " to " ++ override.String) }
    | none =>
      let grown : PersistentVolumeClaim :=
        { pvc with Spec := { pvc.Spec with Resources := { pvc.Spec.Resources with
            Requests := GoMap.entries [(ResourceStorage, override)] } } }
      { obj := Object.PersistentVolumeClaim grown,
        ret := Outcome.ok (Object.PersistentVolumeClaim grown) }

/-- The literal `&route.TLSConfig{...}` of lines 204-207; the fields it does not name are
zero. -/
def passthroughTLS : TLSConfig :=
  { Termination := TLSTerminationPassthrough
    Certificate := ""
    Key := ""
    CACertificate := ""
    DestinationCACertificate := ""
    InsecureEdgeTerminationPolicy := InsecureEdgeTerminationPolicyRedirect }

/-- Lines 187-213 of `Process`, the `*route.Route` case. -/
def processRoute (quay : QuayRegistry) (quayComponentLabel : String) (rt : Route) : Call :=
  if quay.ComponentIsManaged ComponentTLS then
    { obj := Object.Route rt, ret := Outcome.ok (Object.Route rt) }
  else if quayComponentLabel ≠ "quay-app-route" ∧ quayComponentLabel ≠ "quay-builder-route" then
    { obj := Object.Route rt, ret := Outcome.ok (Object.Route rt) }
  else
    let rt1 : Route := { rt with Spec := { rt.Spec with TLS := some passthroughTLS } }
    let rt2 : Route :=
      if quayComponentLabel = "quay-app-route" then
        { rt1 with Spec := { rt1.Spec with Port := some { TargetPort := Parse "https" } } }
      else rt1
    { obj := Object.Route rt2, ret := Outcome.ok (Object.Route rt2) }

/-- Lines 179-185 of `Process`, the `*batchv1.Job` case with the trim flag set. -/
def trimJob (job : Job) : Job :=
  { job with Spec := { job.Spec with
      Template := job.Spec.Template.withContainers
        (trimResources job.Spec.Template.Spec.Containers) } }

/-- `Process` applies the middleware steps to a managed object. `yaml` is the YAML library,
`order` the order in which the `range` of lines 85-89 visits the suffix table, `skipres` the
flag that trims all resource requests. -/
def Process {V : Type} (yaml : YAML V) (order : List (ComponentKind × String))
    (quay : QuayRegistry) (obj : Object) (skipres : Bool) : Call :=
  let objectMeta := obj.objectMeta
  let quayComponentLabel := labelsGet objectMeta.Labels "quay-component"
  if Contains objectMeta.Name (configSecretPrefix ++ "-") then
    match obj with
    | Object.Secret secret =>
      match FlattenSecret yaml secret with
      | Outcome.error err => { obj := obj, ret := Outcome.error err }
      | Outcome.panic => { obj := obj, ret := Outcome.panic }
      | Outcome.ok configBundleSecret =>
        { obj := obj
          ret := Outcome.ok (Object.Secret
            { configBundleSecret with Data := stripSecretData configBundleSecret.Data }) }
    | _ => { obj := obj, ret := Outcome.panic }
  else
    match obj with
    | Object.Deployment dep => processDeployment order quay dep skipres
    | Object.PersistentVolumeClaim pvc => processVolumeClaim quay quayComponentLabel pvc
    | Object.Job job =>
      if skipres then
        { obj := Object.Job (trimJob job), ret := Outcome.ok (Object.Job (trimJob job)) }
      else { obj := obj, ret := Outcome.ok obj }
    | Object.Route rt => processRoute quay quayComponentLabel rt
    | _ => { obj := obj, ret := Outcome.ok obj }

/-! ## Concrete inputs -/

/-- A YAML library that reads every document as the nil mapping and writes the empty text. -/
def nullYAML : YAML Nat :=
  { Unmarshal := fun _ => Except.ok GoMap.nil, Marshal := fun _ => Except.ok "" }

/-- An intent with nothing managed and no override. -/
def bareQuay : QuayRegistry :=
  { ComponentIsManaged := fun _ => false
    GetEnvOverrideForComponent := fun _ => []
    GetReplicasOverrideForComponent := fun _ => none
    GetVolumeSizeOverrideForComponent := fun _ => none
    FieldGroupNamesForManagedComponents := Except.ok [] }

/-- The quantity `5Gi`. -/
def q5Gi : Quantity := { value := 5368709120, text := "5Gi" }

/-- The quantity `10Gi`. -/
def q10Gi : Quantity := { value := 10737418240, text := "10Gi" }

/-- The quantity `20Gi`. -/
def q20Gi : Quantity := { value := 21474836480, text := "20Gi" }

/-- An intent whose only override is a volume size for the Postgres component. -/
def volumeQuay (size : Quantity) : QuayRegistry :=
  { bareQuay with
    GetVolumeSizeOverrideForComponent := fun kind =>
      if kind = ComponentPostgres then some size else none }

/-- The Postgres volume claim, requesting `10Gi`. -/
def postgresPVC : PersistentVolumeClaim :=
  { ObjectMeta :=
      { Name := "registry-quay-database"
        Labels := GoMap.entries [("quay-component", "postgres")]
        Annotations := GoMap.nil }
    Spec := { Resources :=
      { Limits := GoMap.nil, Requests := GoMap.entries [("storage", q10Gi)] } } }

/-- An intent whose only override is a replica count for the Quay component. -/
def replicasQuay (replicas : Int) : QuayRegistry :=
  { bareQuay with
    GetReplicasOverrideForComponent := fun kind =>
      if kind = ComponentQuay then some replicas else none }

/-- A container that requests resources and has one environment variable. -/
def appContainer : Container :=
  { Name := "quay-app"
    Env := [{ Name := "DEBUGLOG", Value := "false", ValueFrom := none }]
    Resources :=
      { Limits := GoMap.entries [("memory", q10Gi)]
        Requests := GoMap.entries [("memory", q5Gi)] } }

/-- The Quay application deployment with the given replica count. -/
def quayAppDeployment (replicas : Option Int) : Deployment :=
  { ObjectMeta :=
      { Name := "registry-quay-app"
        Labels := GoMap.entries [("quay-component", "quay-app")]
        Annotations := GoMap.entries [("quay-component", "quay")] }
    Spec :=
      { Replicas := replicas
        Template :=
          { Annotations := GoMap.nil
            Spec := { InitContainers := [], Containers := [appContainer] } } } }

/-- The container list of the pod template of a Deployment or of a Job. -/
def Object.podContainers : Object → Option (List Container)
  | Object.Deployment d => some d.Spec.Template.Spec.Containers
  | Object.Job j => some j.Spec.Template.Spec.Containers
  | _ => none

/-- A migration job with one container that requests resources. -/
def upgradeJob : Job :=
  { ObjectMeta :=
      { Name := "registry-quay-app-upgrade"
        Labels := GoMap.entries [("quay-component", "quay-app-upgrade")]
        Annotations := GoMap.nil }
    Spec := { Template :=
      { Annotations := GoMap.nil
        Spec := { InitContainers := [], Containers := [appContainer] } } } }

/-- The environment variable `DEBUGLOG=true`. -/
def debugOn : EnvVar := { Name := "DEBUGLOG", Value := "true", ValueFrom := none }

/-- The environment variable `WORKER_COUNT=4`. -/
def workerCount : EnvVar := { Name := "WORKER_COUNT", Value := "4", ValueFrom := none }

/-- An edge-terminated TLS configuration carrying a certificate. -/
def edgeTLS : TLSConfig :=
  { Termination := "edge"
    Certificate := "CERT"
    Key := "KEY"
    CACertificate := ""
    DestinationCACertificate := ""
    InsecureEdgeTerminationPolicy := "Allow" }

/-- A route with the given `quay-component` label, edge TLS and the target port `port`. -/
def labelledRoute (label port : String) : Route :=
  { ObjectMeta :=
      { Name := "registry-quay"
        Labels := GoMap.entries [("quay-component", label)]
        Annotations := GoMap.nil }
    Spec := { TLS := some edgeTLS, Port := some { TargetPort := FromString port } } }

/-- An intent in which only the TLS component is managed. -/
def tlsManagedQuay : QuayRegistry :=
  { bareQuay with ComponentIsManaged := fun kind => decide (kind = ComponentTLS) }

/-- The concrete type of a `client.Object`, as the type switches of `Process` see it. -/
inductive ObjectKind where
  | Secret
  | Deployment
  | PersistentVolumeClaim
  | Job
  | Route
  | Other
  deriving DecidableEq, Repr

/-- The kind of an object. -/
def Object.kind : Object → ObjectKind
  | Object.Secret _ => ObjectKind.Secret
  | Object.Deployment _ => ObjectKind.Deployment
  | Object.PersistentVolumeClaim _ => ObjectKind.PersistentVolumeClaim
  | Object.Job _ => ObjectKind.Job
  | Object.Route _ => ObjectKind.Route
  | Object.Other _ => ObjectKind.Other

/-- A deployment with the given name and pod-template annotations, one container and no
replica count. -/
def namedDeployment (name : String) (annotations : GoMap String) : Deployment :=
  { ObjectMeta :=
      { Name := name
        Labels := GoMap.nil
        Annotations := GoMap.nil }
    Spec :=
      { Replicas := none
        Template :=
          { Annotations := annotations
            Spec := { InitContainers := [], Containers := [appContainer] } } } }

/-- The pod-template annotations the common-annotation step puts on every workload. -/
def commonAnnotations : GoMap String :=
  GoMap.entries
    [("quay-registry-hostname", "registry.example.com"),
     ("quay-buildmanager-hostname", "builder.example.com:443"),
     ("quay-operator-service-endpoint", "http://operator:7071"),
     ("quay-component", "postgres")]

/-- An intent whose field-group derivation gives two names. -/
def fieldGroupQuay : QuayRegistry :=
  { bareQuay with FieldGroupNamesForManagedComponents := Except.ok ["Redis", "Database"] }

/-- A config map (a kind `Process` has no rule for) that carries the config-bundle name. -/
def bundleNamedConfigMap : ObjectMeta :=
  { Name := "registry-quay-config-secret-abc123", Labels := GoMap.nil, Annotations := GoMap.nil }

/-- The component the replica loop stops at: that of the first table entry, in visiting
order, whose suffix the deployment name ends with. -/
def chosenComponent (name : String) (order : List (ComponentKind × String)) :
    Option ComponentKind :=
  (order.find? (fun p => HasSuffix name p.2)).map (fun p => p.1)

/-- A YAML library cut down to three documents: the empty document, which leaves the map
nil as `sigs.k8s.io/yaml` does, `a: 1` and `b: 2`; every other text fails to parse. Scalars
are carried as text and a mapping is written one `key: value` line per pair. -/
def blockYAML : YAML String :=
  { Unmarshal := fun doc =>
      if doc = "" then Except.ok GoMap.nil
      else if doc = "a: 1\n" then Except.ok (GoMap.entries [("a", "1")])
      else if doc = "b: 2\n" then Except.ok (GoMap.entries [("b", "2")])
      else Except.error "error unmarshaling JSON"
    Marshal := fun m =>
      match m with
      | GoMap.nil => Except.ok "null\n"
      | GoMap.entries l =>
        Except.ok (String.join (l.map (fun kv => kv.1 ++ ": " ++ kv.2 ++ "\n"))) }

/-- A secret with the config-bundle name and the given data. -/
def bundleSecret (data : GoMap Bytes) : Secret :=
  { ObjectMeta :=
      { Name := "registry-quay-config-secret-abc123"
        Labels := GoMap.nil
        Annotations := GoMap.nil }
    Data := data }

/-- The data of a config bundle with one fragment, a TLS pair and an extra CA certificate. -/
def bundleData : GoMap Bytes :=
  GoMap.entries
    [("config.yaml", "a: 1\n"),
     ("x.config.yaml", "b: 2\n"),
     ("ssl.cert", "CERT"),
     ("ssl.key", "KEY"),
     ("extra_ca_cert_corp.crt", "CA"),
     ("license", "L")]

/-- The key-value pairs of all fragments of a secret, fragment after fragment in the order
the data is visited: the parsed pairs of every payload whose key contains `.config.yaml`. -/
def fragmentPairs {V : Type} (yaml : YAML V) : List (String × Bytes) → List (String × V)
  | [] => []
  | (key, file) :: rest =>
    if Contains key ".config.yaml" then
      (match yaml.Unmarshal file with
        | Except.ok valueYAML => valueYAML.toList
        | Except.error _ => []) ++ fragmentPairs yaml rest
    else fragmentPairs yaml rest

/-- The value under `k` of the base mapping overlaid with `pairs`: the value of the last
pair for `k` when there is one (it replaces the value of the base mapping), the value of the
base mapping otherwise. -/
def overlaidValue {V : Type} (base : GoMap V) (pairs : List (String × V)) (k : String) :
    Option V :=
  match (pairs.filter (fun kv => kv.1 = k)).getLast? with
  | some kv => some kv.2
  | none => base.lookup k

/-- The last pair named `n` of an override sequence, if the name occurs in it. -/
def lastOverride (overrides : List EnvVar) (n : String) : Option EnvVar :=
  (overrides.filter (fun ov => ov.Name = n)).getLast?

/-- An intent in which the Quay component is managed and overrides `DEBUGLOG` twice and
`WORKER_COUNT` once. -/
def envQuay : QuayRegistry :=
  { bareQuay with
    ComponentIsManaged := fun kind => decide (kind = ComponentQuay)
    GetEnvOverrideForComponent := fun kind =>
      if kind = ComponentQuay then
        [debugOn, workerCount, { Name := "DEBUGLOG", Value := "trace", ValueFrom := none }]
      else [] }

/-- The Quay application deployment after the overrides of `envQuay`, with two replicas and
the given resources on its container. -/
def overriddenDeployment (resources : ResourceRequirements) : Deployment :=
  { ObjectMeta := (quayAppDeployment none).ObjectMeta
    Spec :=
      { Replicas := some 2
        Template :=
          { Annotations := GoMap.nil
            Spec :=
              { InitContainers := []
                Containers :=
                  [{ Name := "quay-app"
                     Env := [{ Name := "DEBUGLOG", Value := "trace", ValueFrom := none },
                       workerCount]
                     Resources := resources }] } } } }

/-! # Theorems: dispatch lemmas -/

theorem configSecretPrefix_dash : configSecretPrefix ++ "-" = "quay-config-secret-" := by
  decide

theorem Process_volumeClaim {V : Type} (yaml : YAML V) (order : List (ComponentKind × String))
    (quay : QuayRegistry) (pvc : PersistentVolumeClaim) (skipres : Bool)
    (hname : Contains pvc.ObjectMeta.Name "quay-config-secret-" = false) :
    Process yaml order quay (Object.PersistentVolumeClaim pvc) skipres =
      processVolumeClaim quay (labelsGet pvc.ObjectMeta.Labels "quay-component") pvc := by
  simp [Process, Object.objectMeta, configSecretPrefix_dash, hname]

theorem Process_deployment {V : Type} (yaml : YAML V) (order : List (ComponentKind × String))
    (quay : QuayRegistry) (dep : Deployment) (skipres : Bool)
    (hname : Contains dep.ObjectMeta.Name "quay-config-secret-" = false) :
    Process yaml order quay (Object.Deployment dep) skipres =
      processDeployment order quay dep skipres := by
  simp [Process, Object.objectMeta, configSecretPrefix_dash, hname]

theorem Process_route {V : Type} (yaml : YAML V) (order : List (ComponentKind × String))
    (quay : QuayRegistry) (rt : Route) (skipres : Bool)
    (hname : Contains rt.ObjectMeta.Name "quay-config-secret-" = false) :
    Process yaml order quay (Object.Route rt) skipres =
      processRoute quay (labelsGet rt.ObjectMeta.Labels "quay-component") rt := by
  simp [Process, Object.objectMeta, configSecretPrefix_dash, hname]

theorem Process_job {V : Type} (yaml : YAML V) (order : List (ComponentKind × String))
    (quay : QuayRegistry) (job : Job) (skipres : Bool)
    (hname : Contains job.ObjectMeta.Name "quay-config-secret-" = false) :
    Process yaml order quay (Object.Job job) skipres =
      if skipres then
        { obj := Object.Job (trimJob job), ret := Outcome.ok (Object.Job (trimJob job)) }
      else { obj := Object.Job job, ret := Outcome.ok (Object.Job job) } := by
  simp [Process, Object.objectMeta, configSecretPrefix_dash, hname]

theorem Cmp_eq_neg_one (q y : Quantity) : q.Cmp y = -1 ↔ q.value < y.value := by
  unfold Quantity.Cmp
  split_ifs <;> simp_all

/-! ## Volume claims -/

/-- C1. Volume-claim shrink guard: for a volume claim outside the config-secret names whose
`quay-component` label is `postgres` (override of the Postgres component) or `clair-postgres`
(override of the Clair component), when the intent holds an override that is numerically
strictly smaller than the claim's current requested storage (the zero quantity when the claim
requests none), `Process` returns an error and no object, the message is
`cannot shrink volume override size from <current> to <override>` and so contains the text of
both sizes, and the claim is left as it was on input. -/
theorem Process_volumeClaim_shrink_rejected {V : Type} (yaml : YAML V)
    (order : List (ComponentKind × String)) (quay : QuayRegistry)
    (pvc : PersistentVolumeClaim) (skipres : Bool) (kind : ComponentKind)
    (override current : Quantity)
    (hname : Contains pvc.ObjectMeta.Name "quay-config-secret-" = false)
    (hlabel : (labelsGet pvc.ObjectMeta.Labels "quay-component" = "postgres" ∧
        kind = ComponentPostgres) ∨
      (labelsGet pvc.ObjectMeta.Labels "quay-component" = "clair-postgres" ∧
        kind = ComponentClair))
    (hoverride : quay.GetVolumeSizeOverrideForComponent kind = some override)
    (hcurrent : ResourceList.Storage pvc.Spec.Resources.Requests = some current)
    (hless : override.value < current.value) :
    (Process yaml order quay (Object.PersistentVolumeClaim pvc) skipres).ret =
        Outcome.error ("cannot shrink volume override size from " ++ current.String ++
          " to " ++ override.String) ∧
      (∃ a b, "cannot shrink volume override size from " ++ current.String ++
          " to " ++ override.String = a ++ current.String ++ b) ∧
      (∃ a b, "cannot shrink volume override size from " ++ current.String ++
          " to " ++ override.String = a ++ override.String ++ b) ∧
      (Process yaml order quay (Object.PersistentVolumeClaim pvc) skipres).obj =
        Object.PersistentVolumeClaim pvc := by
  have hcmp : override.Cmp current = -1 := (Cmp_eq_neg_one _ _).2 hless
  have hover : (if labelsGet pvc.ObjectMeta.Labels "quay-component" = "postgres" then
        quay.GetVolumeSizeOverrideForComponent ComponentPostgres
      else if labelsGet pvc.ObjectMeta.Labels "quay-component" = "clair-postgres" then
        quay.GetVolumeSizeOverrideForComponent ComponentClair
      else none) = some override := by
    rcases hlabel with ⟨h, rfl⟩ | ⟨h, rfl⟩
    · simp [h, hoverride]
    · simp [h, hoverride]
  rw [Process_volumeClaim yaml order quay pvc skipres hname]
  refine ⟨?_, ⟨"cannot shrink volume override size from ", " to " ++ override.String, ?_⟩,
    ⟨"cannot shrink volume override size from " ++ current.String ++ " to ", "", ?_⟩, ?_⟩
  · simp [processVolumeClaim, hover, hcurrent, hcmp]
  · simp [String.append_assoc]
  · simp [String.append_assoc]
  · simp [processVolumeClaim, hover, hcurrent, hcmp]

theorem Process_volumeClaim_shrink_rejected_witness :
    (Process nullYAML depSuffixes (volumeQuay q5Gi) (Object.PersistentVolumeClaim postgresPVC)
        false).ret =
        Outcome.error ("cannot shrink volume override size from " ++ q10Gi.String ++
          " to " ++ q5Gi.String) ∧
      (∃ a b, "cannot shrink volume override size from " ++ q10Gi.String ++
          " to " ++ q5Gi.String = a ++ q10Gi.String ++ b) ∧
      (∃ a b, "cannot shrink volume override size from " ++ q10Gi.String ++
          " to " ++ q5Gi.String = a ++ q5Gi.String ++ b) ∧
      (Process nullYAML depSuffixes (volumeQuay q5Gi) (Object.PersistentVolumeClaim postgresPVC)
        false).obj = Object.PersistentVolumeClaim postgresPVC :=
  Process_volumeClaim_shrink_rejected nullYAML depSuffixes (volumeQuay q5Gi) postgresPVC false
    ComponentPostgres q5Gi q10Gi (by decide) (Or.inl ⟨by decide, rfl⟩) (by decide) (by decide)
    (by decide)

/-- C2. Volume-claim growth: for a volume claim outside the config-secret names labelled
`postgres` (override of the Postgres component) or `clair-postgres` (override of the Clair
component), when the intent holds an override that is numerically greater than or equal to
the claim's current requested storage (the zero quantity when the claim requests none),
`Process` succeeds, the returned claim is the caller's claim, and its requested storage is
exactly the override quantity. -/
theorem Process_volumeClaim_grow {V : Type} (yaml : YAML V)
    (order : List (ComponentKind × String)) (quay : QuayRegistry)
    (pvc : PersistentVolumeClaim) (skipres : Bool) (kind : ComponentKind)
    (override current : Quantity)
    (hname : Contains pvc.ObjectMeta.Name "quay-config-secret-" = false)
    (hlabel : (labelsGet pvc.ObjectMeta.Labels "quay-component" = "postgres" ∧
        kind = ComponentPostgres) ∨
      (labelsGet pvc.ObjectMeta.Labels "quay-component" = "clair-postgres" ∧
        kind = ComponentClair))
    (hoverride : quay.GetVolumeSizeOverrideForComponent kind = some override)
    (hcurrent : ResourceList.Storage pvc.Spec.Resources.Requests = some current)
    (hge : current.value ≤ override.value) :
    ∃ grown : PersistentVolumeClaim,
      (Process yaml order quay (Object.PersistentVolumeClaim pvc) skipres).ret =
          Outcome.ok (Object.PersistentVolumeClaim grown) ∧
        (Process yaml order quay (Object.PersistentVolumeClaim pvc) skipres).obj =
          Object.PersistentVolumeClaim grown ∧
        ResourceList.Storage grown.Spec.Resources.Requests = some override ∧
        grown.Spec.Resources.Requests.lookup ResourceStorage = some override ∧
        grown.ObjectMeta = pvc.ObjectMeta := by
  have hcmp : ¬ override.Cmp current = -1 := by
    rw [Cmp_eq_neg_one]
    exact not_lt.2 hge
  have hover : (if labelsGet pvc.ObjectMeta.Labels "quay-component" = "postgres" then
        quay.GetVolumeSizeOverrideForComponent ComponentPostgres
      else if labelsGet pvc.ObjectMeta.Labels "quay-component" = "clair-postgres" then
        quay.GetVolumeSizeOverrideForComponent ComponentClair
      else none) = some override := by
    rcases hlabel with ⟨h, rfl⟩ | ⟨h, rfl⟩
    · simp [h, hoverride]
    · simp [h, hoverride]
  rw [Process_volumeClaim yaml order quay pvc skipres hname]
  refine ⟨{ pvc with Spec := { pvc.Spec with Resources := { pvc.Spec.Resources with
      Requests := GoMap.entries [(ResourceStorage, override)] } } }, ?_, ?_, ?_, ?_, rfl⟩
  · simp [processVolumeClaim, hover, hcurrent, hcmp]
  · simp [processVolumeClaim, hover, hcurrent, hcmp]
  · simp [ResourceList.Storage, GoMap.lookup, GoMap.toList]
  · simp [GoMap.lookup, GoMap.toList]

theorem Process_volumeClaim_grow_witness :
    ∃ grown : PersistentVolumeClaim,
      (Process nullYAML depSuffixes (volumeQuay q20Gi) (Object.PersistentVolumeClaim postgresPVC)
          true).ret = Outcome.ok (Object.PersistentVolumeClaim grown) ∧
        (Process nullYAML depSuffixes (volumeQuay q20Gi) (Object.PersistentVolumeClaim postgresPVC)
          true).obj = Object.PersistentVolumeClaim grown ∧
        ResourceList.Storage grown.Spec.Resources.Requests = some q20Gi ∧
        grown.Spec.Resources.Requests.lookup ResourceStorage = some q20Gi ∧
        grown.ObjectMeta = postgresPVC.ObjectMeta :=
  Process_volumeClaim_grow nullYAML depSuffixes (volumeQuay q20Gi) postgresPVC true
    ComponentPostgres q20Gi q10Gi (by decide) (Or.inl ⟨by decide, rfl⟩) (by decide) (by decide)
    (by decide)

/-- C3. Volume-claim pass-through: for a volume claim outside the config-secret names for
which no override is resolved (its `quay-component` label is neither `postgres` nor
`clair-postgres`, or it is `postgres` and the intent holds no volume-size override for the
Postgres component, or it is `clair-postgres` and the intent holds none for the Clair
component), `Process` succeeds and returns the claim identical to the input, and leaves the
caller's claim as it was, for every value of the trim flag. -/
theorem Process_volumeClaim_passthrough {V : Type} (yaml : YAML V)
    (order : List (ComponentKind × String)) (quay : QuayRegistry)
    (pvc : PersistentVolumeClaim) (skipres : Bool)
    (hname : Contains pvc.ObjectMeta.Name "quay-config-secret-" = false)
    (hnone : (labelsGet pvc.ObjectMeta.Labels "quay-component" ≠ "postgres" ∧
        labelsGet pvc.ObjectMeta.Labels "quay-component" ≠ "clair-postgres") ∨
      (labelsGet pvc.ObjectMeta.Labels "quay-component" = "postgres" ∧
        quay.GetVolumeSizeOverrideForComponent ComponentPostgres = none) ∨
      (labelsGet pvc.ObjectMeta.Labels "quay-component" = "clair-postgres" ∧
        quay.GetVolumeSizeOverrideForComponent ComponentClair = none)) :
    (Process yaml order quay (Object.PersistentVolumeClaim pvc) skipres).ret =
        Outcome.ok (Object.PersistentVolumeClaim pvc) ∧
      (Process yaml order quay (Object.PersistentVolumeClaim pvc) skipres).obj =
        Object.PersistentVolumeClaim pvc := by
  have hover : (if labelsGet pvc.ObjectMeta.Labels "quay-component" = "postgres" then
        quay.GetVolumeSizeOverrideForComponent ComponentPostgres
      else if labelsGet pvc.ObjectMeta.Labels "quay-component" = "clair-postgres" then
        quay.GetVolumeSizeOverrideForComponent ComponentClair
      else none) = none := by
    rcases hnone with ⟨h1, h2⟩ | ⟨h, hq⟩ | ⟨h, hq⟩
    · simp [h1, h2]
    · simp [h, hq]
    · simp [h, hq]
  rw [Process_volumeClaim yaml order quay pvc skipres hname]
  simp [processVolumeClaim, hover]

theorem Process_volumeClaim_passthrough_witness :
    ((Process nullYAML depSuffixes bareQuay (Object.PersistentVolumeClaim postgresPVC)
          false).ret = Outcome.ok (Object.PersistentVolumeClaim postgresPVC) ∧
        (Process nullYAML depSuffixes bareQuay (Object.PersistentVolumeClaim postgresPVC)
          false).obj = Object.PersistentVolumeClaim postgresPVC) ∧
      ((Process nullYAML depSuffixes bareQuay (Object.PersistentVolumeClaim postgresPVC)
          true).ret = Outcome.ok (Object.PersistentVolumeClaim postgresPVC) ∧
        (Process nullYAML depSuffixes bareQuay (Object.PersistentVolumeClaim postgresPVC)
          true).obj = Object.PersistentVolumeClaim postgresPVC) :=
  ⟨Process_volumeClaim_passthrough nullYAML depSuffixes bareQuay postgresPVC false (by decide)
      (Or.inr (Or.inl ⟨by decide, rfl⟩)),
    Process_volumeClaim_passthrough nullYAML depSuffixes bareQuay postgresPVC true (by decide)
      (Or.inr (Or.inl ⟨by decide, rfl⟩))⟩

theorem HasSuffix_iff (s suffix : String) :
    HasSuffix s suffix = true ↔ suffix.data <:+ s.data := by
  simp [HasSuffix]

theorem depSuffixes_unique (name : String) (p q : ComponentKind × String)
    (hp : p ∈ depSuffixes) (hq : q ∈ depSuffixes)
    (hps : HasSuffix name p.2 = true) (hqs : HasSuffix name q.2 = true) : p = q := by
  rw [HasSuffix_iff] at hps hqs
  have hcases := List.suffix_or_suffix_of_suffix hps hqs
  have hdec : ∀ a ∈ depSuffixes, ∀ b ∈ depSuffixes,
      (a.2.data <:+ b.2.data ∨ b.2.data <:+ a.2.data) → a = b := by decide
  exact hdec p hp q hq hcases

theorem overrideStage_objectMeta (quay : QuayRegistry) (dep : Deployment) :
    (overrideStage quay dep).ObjectMeta = dep.ObjectMeta := by
  simp only [overrideStage]
  split_ifs <;> rfl

theorem overrideStage_replicas (quay : QuayRegistry) (dep : Deployment) :
    (overrideStage quay dep).Spec.Replicas = dep.Spec.Replicas := by
  simp only [overrideStage]
  split_ifs <;> rfl

theorem replicasLoop_objectMeta (quay : QuayRegistry) (dep : Deployment)
    (order : List (ComponentKind × String)) :
    (replicasLoop quay dep order).ObjectMeta = dep.ObjectMeta := by
  induction order with
  | nil => rfl
  | cons p rest ih =>
    obtain ⟨kind, depsuffix⟩ := p
    simp only [replicasLoop]
    split_ifs <;> first | exact ih | rfl

theorem replicasLoop_template (quay : QuayRegistry) (dep : Deployment)
    (order : List (ComponentKind × String)) :
    (replicasLoop quay dep order).Spec.Template = dep.Spec.Template := by
  induction order with
  | nil => rfl
  | cons p rest ih =>
    obtain ⟨kind, depsuffix⟩ := p
    simp only [replicasLoop]
    split_ifs <;> first | exact ih | rfl

theorem replicasLoop_of_set (quay : QuayRegistry) (dep : Deployment)
    (order : List (ComponentKind × String)) (hset : dep.Spec.Replicas ≠ none) :
    replicasLoop quay dep order = dep := by
  induction order with
  | nil => rfl
  | cons p rest ih =>
    obtain ⟨kind, depsuffix⟩ := p
    simp only [replicasLoop]
    split_ifs <;> first | exact ih | rfl

theorem replicasLoop_of_unset (quay : QuayRegistry) (dep : Deployment) (kind : ComponentKind)
    (order : List (ComponentKind × String)) (hunset : dep.Spec.Replicas = none)
    (hfound : ∃ p ∈ order, HasSuffix dep.ObjectMeta.Name p.2 = true)
    (honly : ∀ p ∈ order, HasSuffix dep.ObjectMeta.Name p.2 = true → p.1 = kind) :
    (replicasLoop quay dep order).Spec.Replicas =
      some ((quay.GetReplicasOverrideForComponent kind).getD 2) := by
  induction order with
  | nil => simp at hfound
  | cons p rest ih =>
    obtain ⟨k, depsuffix⟩ := p
    simp only [replicasLoop]
    by_cases hs : HasSuffix dep.ObjectMeta.Name depsuffix = true
    · have hk : k = kind := honly (k, depsuffix) (List.mem_cons_self _ _) hs
      subst hk
      simp only [hs, hunset]
      cases quay.GetReplicasOverrideForComponent k <;> simp
    · simp only [hs]
      simp only [Bool.not_eq_true] at hs
      simp only [hs, Bool.not_false, if_true]
      apply ih
      · obtain ⟨q, hq, hqs⟩ := hfound
        rcases List.mem_cons.1 hq with rfl | hq
        · simp [hs] at hqs
        · exact ⟨q, hq, hqs⟩
      · intro q hq
        exact honly q (List.mem_cons_of_mem _ hq)

theorem trimStage_objectMeta (skipres : Bool) (dep : Deployment) :
    (trimStage skipres dep).ObjectMeta = dep.ObjectMeta := by
  unfold trimStage
  split_ifs <;> rfl

theorem trimStage_replicas (skipres : Bool) (dep : Deployment) :
    (trimStage skipres dep).Spec.Replicas = dep.Spec.Replicas := by
  unfold trimStage
  split_ifs <;> rfl

theorem annotationStage_ret_ok (quay : QuayRegistry) (dep : Deployment) (o : Object)
    (hret : (annotationStage quay dep).ret = Outcome.ok o) :
    ∃ d : Deployment, o = Object.Deployment d ∧ (annotationStage quay dep).obj = o ∧
      d.ObjectMeta = dep.ObjectMeta ∧ d.Spec.Replicas = dep.Spec.Replicas ∧
      d.Spec.Template.Spec = dep.Spec.Template.Spec := by
  unfold annotationStage at hret ⊢
  split_ifs at hret ⊢
  · simp only [Outcome.ok.injEq] at hret
    exact ⟨_, hret.symm, hret, rfl, rfl, rfl⟩
  · simp only [Outcome.ok.injEq] at hret
    exact ⟨_, hret.symm, hret, rfl, rfl, rfl⟩
  · cases hfg : quay.FieldGroupNamesForManagedComponents with
    | error err => simp [hfg] at hret
    | ok fgns =>
      cases hann : dep.Spec.Template.Annotations.set fieldGroupsAnnotation (Join fgns ",") with
      | none => simp [hfg, hann] at hret
      | some annotations =>
        simp only [hfg, hann, Outcome.ok.injEq] at hret ⊢
        exact ⟨_, hret.symm, hret, rfl, rfl, rfl⟩

theorem Process_deployment_ret_ok {V : Type} (yaml : YAML V)
    (order : List (ComponentKind × String)) (quay : QuayRegistry) (dep : Deployment)
    (skipres : Bool) (o : Object)
    (hret : (Process yaml order quay (Object.Deployment dep) skipres).ret = Outcome.ok o) :
    Contains dep.ObjectMeta.Name "quay-config-secret-" = false ∧
      (processDeployment order quay dep skipres).ret = Outcome.ok o := by
  cases hname : Contains dep.ObjectMeta.Name "quay-config-secret-" with
  | true => simp [Process, Object.objectMeta, configSecretPrefix_dash, hname] at hret
  | false =>
    rw [Process_deployment yaml order quay dep skipres hname] at hret
    exact ⟨rfl, hret⟩

/-! ## Replicas -/

/-- C4. Replica defaulting: for a Deployment whose replica count is unset and whose name ends
with `clair-app`, `quay-mirror` or `quay-app`, for an intent in which the autoscaler (HPA) is
not managed, and for every order in which the suffix table is visited, whenever `Process`
returns an object it is a Deployment whose replica count is the intent's replica override for
the component of the suffix (Clair, Mirror, Quay respectively) when there is one, and 2
otherwise. -/
theorem Process_replicas_defaulted {V : Type} (yaml : YAML V)
    (order : List (ComponentKind × String)) (quay : QuayRegistry) (dep : Deployment)
    (skipres : Bool) (kind : ComponentKind) (o : Object)
    (horder : order.Perm depSuffixes)
    (hunset : dep.Spec.Replicas = none)
    (hsuffix : (HasSuffix dep.ObjectMeta.Name "clair-app" = true ∧ kind = ComponentClair) ∨
      (HasSuffix dep.ObjectMeta.Name "quay-mirror" = true ∧ kind = ComponentMirror) ∨
      (HasSuffix dep.ObjectMeta.Name "quay-app" = true ∧ kind = ComponentQuay))
    (hhpa : quay.ComponentIsManaged ComponentHPA = false)
    (hret : (Process yaml order quay (Object.Deployment dep) skipres).ret = Outcome.ok o) :
    ∃ d : Deployment, o = Object.Deployment d ∧
      d.Spec.Replicas = some ((quay.GetReplicasOverrideForComponent kind).getD 2) := by
  obtain ⟨-, hret⟩ := Process_deployment_ret_ok yaml order quay dep skipres o hret
  obtain ⟨d, hd, -, -, hrep, -⟩ := annotationStage_ret_ok quay _ o hret
  refine ⟨d, hd, ?_⟩
  rw [hrep, trimStage_replicas]
  have hmatch : ∃ depsuffix, (kind, depsuffix) ∈ depSuffixes ∧
      HasSuffix dep.ObjectMeta.Name depsuffix = true := by
    rcases hsuffix with ⟨h, rfl⟩ | ⟨h, rfl⟩ | ⟨h, rfl⟩
    · exact ⟨"clair-app", by simp [depSuffixes], h⟩
    · exact ⟨"quay-mirror", by simp [depSuffixes], h⟩
    · exact ⟨"quay-app", by simp [depSuffixes], h⟩
  obtain ⟨depsuffix, hmem, hhas⟩ := hmatch
  simp only [replicasStage, hhpa, Bool.not_false, if_true]
  apply replicasLoop_of_unset
  · rw [overrideStage_replicas]
    exact hunset
  · rw [overrideStage_objectMeta]
    exact ⟨(kind, depsuffix), horder.mem_iff.2 hmem, hhas⟩
  · intro p hp hps
    rw [overrideStage_objectMeta] at hps
    have heq := depSuffixes_unique dep.ObjectMeta.Name p (kind, depsuffix)
      (horder.mem_iff.1 hp) hmem hps hhas
    rw [heq]

theorem Process_replicas_defaulted_witness :
    (Process nullYAML depSuffixes (replicasQuay 5) (Object.Deployment (quayAppDeployment none))
        false).ret = Outcome.ok (Object.Deployment (quayAppDeployment (some 5))) ∧
      ∃ d : Deployment, Object.Deployment (quayAppDeployment (some 5)) = Object.Deployment d ∧
        d.Spec.Replicas = some (((replicasQuay 5).GetReplicasOverrideForComponent
          ComponentQuay).getD 2) :=
  ⟨by decide,
    Process_replicas_defaulted nullYAML depSuffixes (replicasQuay 5) (quayAppDeployment none)
      false ComponentQuay (Object.Deployment (quayAppDeployment (some 5))) (List.Perm.refl _)
      rfl (Or.inr (Or.inr ⟨by decide, rfl⟩)) rfl (by decide)⟩

/-- C5. Replica preservation: for every Deployment, intent and visiting order of the suffix
table, if the replica count is already set on input (an explicit 0 included) or the
autoscaler (HPA) is managed in the intent, then whenever `Process` returns an object it is a
Deployment whose replica count equals the input one (the same value, or still unset),
whatever replica override the intent carries. -/
theorem Process_replicas_preserved {V : Type} (yaml : YAML V)
    (order : List (ComponentKind × String)) (quay : QuayRegistry) (dep : Deployment)
    (skipres : Bool) (o : Object)
    (hkeep : dep.Spec.Replicas ≠ none ∨ quay.ComponentIsManaged ComponentHPA = true)
    (hret : (Process yaml order quay (Object.Deployment dep) skipres).ret = Outcome.ok o) :
    ∃ d : Deployment, o = Object.Deployment d ∧ d.Spec.Replicas = dep.Spec.Replicas := by
  obtain ⟨-, hret⟩ := Process_deployment_ret_ok yaml order quay dep skipres o hret
  obtain ⟨d, hd, -, -, hrep, -⟩ := annotationStage_ret_ok quay _ o hret
  refine ⟨d, hd, ?_⟩
  rw [hrep, trimStage_replicas]
  rcases hkeep with hset | hhpa
  · simp only [replicasStage]
    split_ifs
    · rw [replicasLoop_of_set, overrideStage_replicas]
      rw [overrideStage_replicas]
      exact hset
    · exact overrideStage_replicas quay dep
  · simp only [replicasStage, hhpa, Bool.not_true]
    exact overrideStage_replicas quay dep

theorem Process_replicas_preserved_witness :
    (Process nullYAML depSuffixes (replicasQuay 5)
        (Object.Deployment (quayAppDeployment (some 0))) false).ret =
        Outcome.ok (Object.Deployment (quayAppDeployment (some 0))) ∧
      ∃ d : Deployment, Object.Deployment (quayAppDeployment (some 0)) = Object.Deployment d ∧
        d.Spec.Replicas = (quayAppDeployment (some 0)).Spec.Replicas :=
  ⟨by decide,
    Process_replicas_preserved nullYAML depSuffixes (replicasQuay 5)
      (quayAppDeployment (some 0)) false (Object.Deployment (quayAppDeployment (some 0)))
      (Or.inl (by decide)) (by decide)⟩

/-! ## `UpsertContainerEnv` -/

theorem upsertEnv_idem (env : List EnvVar) (newv : EnvVar) :
    upsertEnv (upsertEnv env newv) newv = upsertEnv env newv := by
  induction env with
  | nil => simp [upsertEnv]
  | cons origv rest ih =>
    by_cases h : origv.Name = newv.Name
    · simp [upsertEnv, h]
    · simp [upsertEnv, h, ih]

theorem upsertEnv_eq_set (newv : EnvVar) (env : List EnvVar) (i : Nat)
    (hat : ∃ origv, env[i]? = some origv ∧ origv.Name = newv.Name)
    (hfirst : ∀ j, j < i → ∀ e, env[j]? = some e → e.Name ≠ newv.Name) :
    upsertEnv env newv = env.set i newv := by
  induction env generalizing i with
  | nil =>
    obtain ⟨origv, h, -⟩ := hat
    simp at h
  | cons a rest ih =>
    cases i with
    | zero =>
      obtain ⟨origv, h, hname⟩ := hat
      simp only [List.getElem?_cons_zero, Option.some.injEq] at h
      subst h
      simp [upsertEnv, hname]
    | succ k =>
      have ha : a.Name ≠ newv.Name := hfirst 0 (Nat.succ_pos k) a (by simp)
      simp only [upsertEnv, ha, ne_eq, not_false_eq_true, if_true, List.set_cons_succ]
      congr 1
      apply ih k
      · simpa using hat
      · intro j hj e he
        exact hfirst (j + 1) (Nat.succ_lt_succ hj) e (by simpa using he)

theorem upsertEnv_eq_append (newv : EnvVar) (env : List EnvVar)
    (hnone : ∀ e ∈ env, e.Name ≠ newv.Name) : upsertEnv env newv = env ++ [newv] := by
  induction env with
  | nil => rfl
  | cons a rest ih =>
    have ha : a.Name ≠ newv.Name := hnone a (List.mem_cons_self _ _)
    simp only [upsertEnv, ha, ne_eq, not_false_eq_true, if_true, List.cons_append]
    congr 1
    exact ih (fun e he => hnone e (List.mem_cons_of_mem _ he))

/-- C6. `UpsertContainerEnv` is idempotent: for every container and every environment
variable, upserting the variable twice gives exactly the container, and so exactly the
environment list (same entries, same order, same length), that upserting it once gives. -/
theorem UpsertContainerEnv_idempotent (container : Container) (newv : EnvVar) :
    UpsertContainerEnv (UpsertContainerEnv container newv) newv =
        UpsertContainerEnv container newv ∧
      (UpsertContainerEnv (UpsertContainerEnv container newv) newv).Env =
        (UpsertContainerEnv container newv).Env := by
  have h : UpsertContainerEnv (UpsertContainerEnv container newv) newv =
      UpsertContainerEnv container newv := by
    simp [UpsertContainerEnv, upsertEnv_idem]
  exact ⟨h, by rw [h]⟩

/-- C7. `UpsertContainerEnv` inserts or replaces: for every container and variable, if the
entry at index `i` of the environment list has the variable's name and no entry before it
has, the result has the same length, holds the variable at index `i` and every other entry
unchanged; if no entry has the variable's name, the result is the input list with the
variable appended as its last element. The name and resources of the container are not
written. -/
theorem UpsertContainerEnv_insert_or_replace (container : Container) (newv : EnvVar) :
    (∀ i : Nat, (∃ origv, container.Env[i]? = some origv ∧ origv.Name = newv.Name) →
      (∀ j, j < i → ∀ e, container.Env[j]? = some e → e.Name ≠ newv.Name) →
        (UpsertContainerEnv container newv).Env.length = container.Env.length ∧
          (UpsertContainerEnv container newv).Env[i]? = some newv ∧
          ∀ j, j ≠ i → (UpsertContainerEnv container newv).Env[j]? = container.Env[j]?) ∧
      ((∀ e ∈ container.Env, e.Name ≠ newv.Name) →
        (UpsertContainerEnv container newv).Env = container.Env ++ [newv]) ∧
      (UpsertContainerEnv container newv).Name = container.Name ∧
      (UpsertContainerEnv container newv).Resources = container.Resources := by
  refine ⟨?_, ?_, rfl, rfl⟩
  · intro i hat hfirst
    have hset : (UpsertContainerEnv container newv).Env = container.Env.set i newv :=
      upsertEnv_eq_set newv container.Env i hat hfirst
    have hlt : i < container.Env.length := by
      obtain ⟨origv, h, -⟩ := hat
      exact (List.getElem?_eq_some_iff.1 h).1
    rw [hset]
    refine ⟨List.length_set _ _ _, ?_, ?_⟩
    · simp [List.getElem?_set, hlt]
    · intro j hj
      simp [List.getElem?_set, Ne.symm hj]
  · intro hnone
    exact upsertEnv_eq_append newv container.Env hnone

theorem UpsertContainerEnv_insert_or_replace_witness :
    ((UpsertContainerEnv appContainer debugOn).Env.length = appContainer.Env.length ∧
        (UpsertContainerEnv appContainer debugOn).Env[0]? = some debugOn ∧
        ∀ j, j ≠ 0 → (UpsertContainerEnv appContainer debugOn).Env[j]? = appContainer.Env[j]?) ∧
      (UpsertContainerEnv appContainer workerCount).Env = appContainer.Env ++ [workerCount] :=
  ⟨(UpsertContainerEnv_insert_or_replace appContainer debugOn).1 0
      ⟨{ Name := "DEBUGLOG", Value := "false", ValueFrom := none }, rfl, rfl⟩
      (fun j hj => absurd hj (Nat.not_lt_zero j)),
    (UpsertContainerEnv_insert_or_replace appContainer workerCount).2.1 (by decide)⟩

/-! ## Resource trimming -/

theorem overrideEnv_names (overrides : List EnvVar) (containers : List Container) :
    (overrideEnv overrides containers).map Container.Name = containers.map Container.Name := by
  unfold overrideEnv
  induction overrides generalizing containers with
  | nil => rfl
  | cons oenv rest ih =>
    rw [List.foldl_cons, ih]
    simp [List.map_map, Function.comp_def, UpsertContainerEnv]

theorem overrideStage_names (quay : QuayRegistry) (dep : Deployment) :
    (overrideStage quay dep).Spec.Template.Spec.Containers.map Container.Name =
      dep.Spec.Template.Spec.Containers.map Container.Name := by
  simp only [overrideStage]
  split_ifs
  · exact overrideEnv_names _ _
  · rfl

theorem replicasStage_template (order : List (ComponentKind × String)) (quay : QuayRegistry)
    (dep : Deployment) : (replicasStage order quay dep).Spec.Template = dep.Spec.Template := by
  unfold replicasStage
  split_ifs
  · exact replicasLoop_template quay dep order
  · rfl

theorem trimResources_names (containers : List Container) :
    (trimResources containers).map Container.Name = containers.map Container.Name := by
  simp [trimResources, List.map_map, Function.comp_def]

theorem trimResources_empty (containers : List Container) :
    ∀ c ∈ trimResources containers,
      c.Resources.Requests = GoMap.nil ∧ c.Resources.Limits = GoMap.nil := by
  intro c hc
  simp only [trimResources, List.mem_map] at hc
  obtain ⟨c0, -, rfl⟩ := hc
  exact ⟨rfl, rfl⟩

/-- C8. Resource trimming: for every Deployment and every Job, every intent and every
visiting order of the suffix table, if the trim flag is true and `Process` returns an object,
then the returned object has a pod template whose containers are those of the input by name
and in order, and every one of them has empty (nil) resource requests and empty (nil)
resource limits, whatever they were before, whatever the object's name and whichever
components are managed. -/
theorem Process_trims_resources {V : Type} (yaml : YAML V)
    (order : List (ComponentKind × String)) (quay : QuayRegistry) (obj o : Object)
    (hkind : (∃ dep, obj = Object.Deployment dep) ∨ (∃ job, obj = Object.Job job))
    (hret : (Process yaml order quay obj true).ret = Outcome.ok o) :
    ∃ before after : List Container,
      obj.podContainers = some before ∧ o.podContainers = some after ∧
        after.map Container.Name = before.map Container.Name ∧
        ∀ c ∈ after, c.Resources.Requests = GoMap.nil ∧ c.Resources.Limits = GoMap.nil := by
  rcases hkind with ⟨dep, rfl⟩ | ⟨job, rfl⟩
  · obtain ⟨-, hret⟩ := Process_deployment_ret_ok yaml order quay dep true o hret
    obtain ⟨d, hd, -, -, -, hspec⟩ := annotationStage_ret_ok quay _ o hret
    subst hd
    have hcs : d.Spec.Template.Spec.Containers =
        trimResources (overrideStage quay dep).Spec.Template.Spec.Containers := by
      rw [hspec]
      simp [trimStage, PodTemplateSpec.withContainers, replicasStage_template]
    refine ⟨dep.Spec.Template.Spec.Containers, d.Spec.Template.Spec.Containers, rfl, rfl, ?_, ?_⟩
    · rw [hcs, trimResources_names, overrideStage_names]
    · rw [hcs]
      exact trimResources_empty _
  · cases hname : Contains job.ObjectMeta.Name "quay-config-secret-" with
    | true => simp [Process, Object.objectMeta, configSecretPrefix_dash, hname] at hret
    | false =>
      rw [Process_job yaml order quay job true hname] at hret
      simp only [if_true, Outcome.ok.injEq] at hret
      subst hret
      refine ⟨job.Spec.Template.Spec.Containers,
        trimResources job.Spec.Template.Spec.Containers, rfl, rfl, ?_, ?_⟩
      · exact trimResources_names _
      · exact trimResources_empty _

theorem Process_trims_resources_witness :
    (Process nullYAML depSuffixes bareQuay (Object.Job upgradeJob) true).ret =
        Outcome.ok (Object.Job (trimJob upgradeJob)) ∧
      ∃ before after : List Container,
        (Object.Job upgradeJob).podContainers = some before ∧
          (Object.Job (trimJob upgradeJob)).podContainers = some after ∧
          after.map Container.Name = before.map Container.Name ∧
          ∀ c ∈ after, c.Resources.Requests = GoMap.nil ∧ c.Resources.Limits = GoMap.nil :=
  ⟨by decide, Process_trims_resources nullYAML depSuffixes bareQuay (Object.Job upgradeJob)
    (Object.Job (trimJob upgradeJob)) (Or.inr ⟨upgradeJob, rfl⟩) (by decide)⟩

/-! ## Routes -/

theorem Parse_https : Parse "https" = FromString "https" := by decide

/-- C9. Route passthrough: for a Route outside the config-secret names and an intent in
which TLS is not managed, `Process` succeeds on a Route labelled `quay-app-route` with TLS
termination `passthrough`, insecure-traffic policy `Redirect` and the named target port
`https`, and on a Route labelled `quay-builder-route` with termination `passthrough`, policy
`Redirect` and the port field of the input; in both cases the TLS configuration holds nothing
else and the object metadata is the input one. -/
theorem Process_route_passthrough {V : Type} (yaml : YAML V)
    (order : List (ComponentKind × String)) (quay : QuayRegistry) (rt : Route) (skipres : Bool)
    (hname : Contains rt.ObjectMeta.Name "quay-config-secret-" = false)
    (htls : quay.ComponentIsManaged ComponentTLS = false) :
    (labelsGet rt.ObjectMeta.Labels "quay-component" = "quay-app-route" →
        ∃ out : Route, ∃ tls : TLSConfig,
          (Process yaml order quay (Object.Route rt) skipres).ret =
              Outcome.ok (Object.Route out) ∧
            (Process yaml order quay (Object.Route rt) skipres).obj = Object.Route out ∧
            out.Spec.TLS = some tls ∧
            tls.Termination = TLSTerminationPassthrough ∧
            tls.InsecureEdgeTerminationPolicy = InsecureEdgeTerminationPolicyRedirect ∧
            tls.Certificate = "" ∧ tls.Key = "" ∧ tls.CACertificate = "" ∧
            tls.DestinationCACertificate = "" ∧
            out.Spec.Port = some { TargetPort :=
              { Kind := IntOrStringType.String, IntVal := 0, StrVal := "https" } } ∧
            out.ObjectMeta = rt.ObjectMeta) ∧
      (labelsGet rt.ObjectMeta.Labels "quay-component" = "quay-builder-route" →
        ∃ out : Route, ∃ tls : TLSConfig,
          (Process yaml order quay (Object.Route rt) skipres).ret =
              Outcome.ok (Object.Route out) ∧
            (Process yaml order quay (Object.Route rt) skipres).obj = Object.Route out ∧
            out.Spec.TLS = some tls ∧
            tls.Termination = TLSTerminationPassthrough ∧
            tls.InsecureEdgeTerminationPolicy = InsecureEdgeTerminationPolicyRedirect ∧
            tls.Certificate = "" ∧ tls.Key = "" ∧ tls.CACertificate = "" ∧
            tls.DestinationCACertificate = "" ∧
            out.Spec.Port = rt.Spec.Port ∧
            out.ObjectMeta = rt.ObjectMeta) := by
  rw [Process_route yaml order quay rt skipres hname]
  constructor
  · intro hlabel
    refine ⟨Route.mk rt.ObjectMeta (RouteSpec.mk (some passthroughTLS)
        (some (RoutePort.mk (Parse "https")))), passthroughTLS,
      ?_, ?_, rfl, rfl, rfl, rfl, rfl, rfl, rfl, ?_, rfl⟩
    · simp [processRoute, htls, hlabel]
    · simp [processRoute, htls, hlabel]
    · simp [Parse_https, FromString]
  · intro hlabel
    have hne : ¬ ("quay-builder-route" = "quay-app-route") := by decide
    refine ⟨Route.mk rt.ObjectMeta (RouteSpec.mk (some passthroughTLS) rt.Spec.Port),
      passthroughTLS, ?_, ?_, rfl, rfl, rfl, rfl, rfl, rfl, rfl, rfl, rfl⟩
    · simp [processRoute, htls, hlabel, hne]
    · simp [processRoute, htls, hlabel, hne]

theorem Process_route_passthrough_witness :
    (∃ out : Route, ∃ tls : TLSConfig,
        (Process nullYAML depSuffixes bareQuay
            (Object.Route (labelledRoute "quay-app-route" "http")) false).ret =
            Outcome.ok (Object.Route out) ∧
          (Process nullYAML depSuffixes bareQuay
            (Object.Route (labelledRoute "quay-app-route" "http")) false).obj =
            Object.Route out ∧
          out.Spec.TLS = some tls ∧
          tls.Termination = TLSTerminationPassthrough ∧
          tls.InsecureEdgeTerminationPolicy = InsecureEdgeTerminationPolicyRedirect ∧
          tls.Certificate = "" ∧ tls.Key = "" ∧ tls.CACertificate = "" ∧
          tls.DestinationCACertificate = "" ∧
          out.Spec.Port = some { TargetPort :=
            { Kind := IntOrStringType.String, IntVal := 0, StrVal := "https" } } ∧
          out.ObjectMeta = (labelledRoute "quay-app-route" "http").ObjectMeta) ∧
      (∃ out : Route, ∃ tls : TLSConfig,
        (Process nullYAML depSuffixes bareQuay
            (Object.Route (labelledRoute "quay-builder-route" "grpc")) false).ret =
            Outcome.ok (Object.Route out) ∧
          (Process nullYAML depSuffixes bareQuay
            (Object.Route (labelledRoute "quay-builder-route" "grpc")) false).obj =
            Object.Route out ∧
          out.Spec.TLS = some tls ∧
          tls.Termination = TLSTerminationPassthrough ∧
          tls.InsecureEdgeTerminationPolicy = InsecureEdgeTerminationPolicyRedirect ∧
          tls.Certificate = "" ∧ tls.Key = "" ∧ tls.CACertificate = "" ∧
          tls.DestinationCACertificate = "" ∧
          out.Spec.Port = (labelledRoute "quay-builder-route" "grpc").Spec.Port ∧
          out.ObjectMeta = (labelledRoute "quay-builder-route" "grpc").ObjectMeta) :=
  ⟨(Process_route_passthrough nullYAML depSuffixes bareQuay
      (labelledRoute "quay-app-route" "http") false (by decide) rfl).1 (by decide),
    (Process_route_passthrough nullYAML depSuffixes bareQuay
      (labelledRoute "quay-builder-route" "grpc") false (by decide) rfl).2 (by decide)⟩

/-- C10. Route pass-through: for a Route outside the config-secret names, if TLS is managed
in the intent, or the `quay-component` label of the Route is neither `quay-app-route` nor
`quay-builder-route`, `Process` succeeds and returns the Route identical to the input (TLS
configuration and port untouched), and leaves the caller's Route as it was. -/
theorem Process_route_unchanged {V : Type} (yaml : YAML V)
    (order : List (ComponentKind × String)) (quay : QuayRegistry) (rt : Route) (skipres : Bool)
    (hname : Contains rt.ObjectMeta.Name "quay-config-secret-" = false)
    (hskip : quay.ComponentIsManaged ComponentTLS = true ∨
      (labelsGet rt.ObjectMeta.Labels "quay-component" ≠ "quay-app-route" ∧
        labelsGet rt.ObjectMeta.Labels "quay-component" ≠ "quay-builder-route")) :
    (Process yaml order quay (Object.Route rt) skipres).ret = Outcome.ok (Object.Route rt) ∧
      (Process yaml order quay (Object.Route rt) skipres).obj = Object.Route rt := by
  rw [Process_route yaml order quay rt skipres hname]
  rcases hskip with htls | ⟨h1, h2⟩
  · simp [processRoute, htls]
  · unfold processRoute
    split_ifs
    · exact ⟨rfl, rfl⟩
    · exact ⟨rfl, rfl⟩
    · rename_i hcond
      exact absurd ⟨h1, h2⟩ hcond

theorem Process_route_unchanged_witness :
    ((Process nullYAML depSuffixes tlsManagedQuay
          (Object.Route (labelledRoute "quay-app-route" "http")) false).ret =
          Outcome.ok (Object.Route (labelledRoute "quay-app-route" "http")) ∧
        (Process nullYAML depSuffixes tlsManagedQuay
          (Object.Route (labelledRoute "quay-app-route" "http")) false).obj =
          Object.Route (labelledRoute "quay-app-route" "http")) ∧
      ((Process nullYAML depSuffixes bareQuay
          (Object.Route (labelledRoute "quay-config-editor-route" "http")) false).ret =
          Outcome.ok (Object.Route (labelledRoute "quay-config-editor-route" "http")) ∧
        (Process nullYAML depSuffixes bareQuay
          (Object.Route (labelledRoute "quay-config-editor-route" "http")) false).obj =
          Object.Route (labelledRoute "quay-config-editor-route" "http")) :=
  ⟨Process_route_unchanged nullYAML depSuffixes tlsManagedQuay
      (labelledRoute "quay-app-route" "http") false (by decide) (Or.inl (by decide)),
    Process_route_unchanged nullYAML depSuffixes bareQuay
      (labelledRoute "quay-config-editor-route" "http") false (by decide)
      (Or.inr ⟨by decide, by decide⟩)⟩

/-! ## Maps -/

theorem find_filter_ne {β : Type} (l : List (String × β)) (k k' : String) (h : k' ≠ k) :
    (l.filter (fun kv => kv.1 ≠ k)).find? (fun kv => kv.1 = k') =
      l.find? (fun kv => kv.1 = k') := by
  rw [List.find?_filter]
  congr 1
  funext kv
  by_cases hk : kv.1 = k'
  · simp [hk, h]
  · simp [hk]

theorem find_filter_self {β : Type} (l : List (String × β)) (k : String) :
    (l.filter (fun kv => kv.1 ≠ k)).find? (fun kv => kv.1 = k) = none := by
  simp [List.find?_eq_none]

theorem GoMap.lookup_delete_self {β : Type} (m : GoMap β) (k : String) :
    (m.delete k).lookup k = none := by
  cases m with
  | nil => rfl
  | entries l => simp [GoMap.delete, GoMap.lookup, GoMap.toList, find_filter_self]

theorem GoMap.lookup_delete_ne {β : Type} (m : GoMap β) (k k' : String) (h : k' ≠ k) :
    (m.delete k).lookup k' = m.lookup k' := by
  cases m with
  | nil => rfl
  | entries l =>
    show Option.map _ ((l.filter (fun kv => kv.1 ≠ k)).find? (fun kv => kv.1 = k')) = _
    rw [find_filter_ne l k k' h]
    rfl

theorem find_setEntry_self {β : Type} (l : List (String × β)) (k : String) (v : β) :
    (GoMap.setEntry l k v).find? (fun kv => kv.1 = k) = some (k, v) := by
  induction l with
  | nil => simp [GoMap.setEntry]
  | cons a rest ih =>
    by_cases ha : a.1 = k
    · simp [GoMap.setEntry, ha]
    · simp [GoMap.setEntry, ha, List.find?_cons, ih]

theorem find_setEntry_ne {β : Type} (l : List (String × β)) (k k' : String) (v : β)
    (h : k' ≠ k) :
    (GoMap.setEntry l k v).find? (fun kv => kv.1 = k') = l.find? (fun kv => kv.1 = k') := by
  induction l with
  | nil => simp [GoMap.setEntry, Ne.symm h]
  | cons a rest ih =>
    by_cases ha : a.1 = k
    · have hak : ¬ a.1 = k' := fun h' => h (h'.symm.trans ha)
      simp [GoMap.setEntry, ha, List.find?_cons, hak, Ne.symm h]
    · by_cases hak : a.1 = k'
      · rw [GoMap.setEntry, if_neg ha]
        simp [List.find?_cons, hak]
      · rw [GoMap.setEntry, if_neg ha]
        simp [List.find?_cons, hak, ih]

theorem Deployment.withTemplateAnnotations_annotations (dep : Deployment)
    (annotations : GoMap String) :
    (dep.withTemplateAnnotations annotations).Spec.Template.Annotations = annotations := rfl

theorem setEntry_setEntry {β : Type} (l : List (String × β)) (k : String) (v : β) :
    GoMap.setEntry (GoMap.setEntry l k v) k v = GoMap.setEntry l k v := by
  induction l with
  | nil => simp [GoMap.setEntry]
  | cons a rest ih =>
    by_cases ha : a.1 = k
    · simp [GoMap.setEntry, ha]
    · simp [GoMap.setEntry, ha, ih]

/-! ## Annotations of a deployment -/

theorem overrideStage_annotations (quay : QuayRegistry) (dep : Deployment) :
    (overrideStage quay dep).Spec.Template.Annotations = dep.Spec.Template.Annotations := by
  simp only [overrideStage]
  split_ifs <;> rfl

theorem trimStage_annotations (skipres : Bool) (dep : Deployment) :
    (trimStage skipres dep).Spec.Template.Annotations = dep.Spec.Template.Annotations := by
  unfold trimStage
  split_ifs <;> rfl

theorem staged_objectMeta (order : List (ComponentKind × String)) (quay : QuayRegistry)
    (dep : Deployment) (skipres : Bool) :
    (trimStage skipres (replicasStage order quay (overrideStage quay dep))).ObjectMeta =
      dep.ObjectMeta := by
  rw [trimStage_objectMeta]
  unfold replicasStage
  split_ifs
  · rw [replicasLoop_objectMeta, overrideStage_objectMeta]
  · exact overrideStage_objectMeta quay dep

theorem staged_annotations (order : List (ComponentKind × String)) (quay : QuayRegistry)
    (dep : Deployment) (skipres : Bool) :
    (trimStage skipres (replicasStage order quay
      (overrideStage quay dep))).Spec.Template.Annotations = dep.Spec.Template.Annotations := by
  rw [trimStage_annotations, replicasStage_template, overrideStage_annotations]

/-- C13. Database workloads: for every Deployment whose name contains `quay-database` and not
`quay-config-secret-`, every intent, visiting order and trim flag, `Process` succeeds, and the
pod-template annotations of the returned Deployment hold none of `quay-registry-hostname`,
`quay-buildmanager-hostname` and `quay-operator-service-endpoint`, hold every other
annotation exactly as the input does, and in particular `quay-managed-fieldgroups` is as on
input (not added), also when the name contains `quay-config-editor`. -/
theorem Process_database_annotations {V : Type} (yaml : YAML V)
    (order : List (ComponentKind × String)) (quay : QuayRegistry) (dep : Deployment)
    (skipres : Bool)
    (hname : Contains dep.ObjectMeta.Name "quay-config-secret-" = false)
    (hdatabase : Contains dep.ObjectMeta.Name "quay-database" = true) :
    ∃ out : Deployment,
      (Process yaml order quay (Object.Deployment dep) skipres).ret =
          Outcome.ok (Object.Deployment out) ∧
        (Process yaml order quay (Object.Deployment dep) skipres).obj = Object.Deployment out ∧
        out.Spec.Template.Annotations.lookup "quay-registry-hostname" = none ∧
        out.Spec.Template.Annotations.lookup "quay-buildmanager-hostname" = none ∧
        out.Spec.Template.Annotations.lookup "quay-operator-service-endpoint" = none ∧
        (∀ k, k ≠ "quay-registry-hostname" → k ≠ "quay-buildmanager-hostname" →
          k ≠ "quay-operator-service-endpoint" →
          out.Spec.Template.Annotations.lookup k = dep.Spec.Template.Annotations.lookup k) ∧
        out.Spec.Template.Annotations.lookup fieldGroupsAnnotation =
          dep.Spec.Template.Annotations.lookup fieldGroupsAnnotation := by
  have hmeta := staged_objectMeta order quay dep skipres
  have hann := staged_annotations order quay dep skipres
  have hother : ∀ k, k ≠ "quay-registry-hostname" → k ≠ "quay-buildmanager-hostname" →
      k ≠ "quay-operator-service-endpoint" →
      (((dep.Spec.Template.Annotations.delete "quay-registry-hostname").delete
        "quay-buildmanager-hostname").delete "quay-operator-service-endpoint").lookup k =
        dep.Spec.Template.Annotations.lookup k := by
    intro k h1 h2 h3
    rw [GoMap.lookup_delete_ne _ _ _ h3, GoMap.lookup_delete_ne _ _ _ h2,
      GoMap.lookup_delete_ne _ _ _ h1]
  rw [Process_deployment yaml order quay dep skipres hname]
  refine ⟨(trimStage skipres (replicasStage order quay
      (overrideStage quay dep))).withTemplateAnnotations
      (((dep.Spec.Template.Annotations.delete "quay-registry-hostname").delete
        "quay-buildmanager-hostname").delete "quay-operator-service-endpoint"),
    ?_, ?_, ?_, ?_, ?_, ?_, ?_⟩
  · simp [processDeployment, annotationStage, hmeta, hdatabase, hann]
  · simp [processDeployment, annotationStage, hmeta, hdatabase, hann]
  · rw [Deployment.withTemplateAnnotations_annotations,
      GoMap.lookup_delete_ne _ "quay-operator-service-endpoint" _ (by decide),
      GoMap.lookup_delete_ne _ "quay-buildmanager-hostname" _ (by decide)]
    exact GoMap.lookup_delete_self _ _
  · rw [Deployment.withTemplateAnnotations_annotations,
      GoMap.lookup_delete_ne _ "quay-operator-service-endpoint" _ (by decide)]
    exact GoMap.lookup_delete_self _ _
  · exact GoMap.lookup_delete_self _ _
  · exact hother
  · exact hother fieldGroupsAnnotation (by decide) (by decide) (by decide)

theorem Process_database_annotations_witness :
    ∃ out : Deployment,
      (Process nullYAML depSuffixes fieldGroupQuay (Object.Deployment
          (namedDeployment "quay-config-editor-quay-database" commonAnnotations)) false).ret =
          Outcome.ok (Object.Deployment out) ∧
        (Process nullYAML depSuffixes fieldGroupQuay (Object.Deployment
          (namedDeployment "quay-config-editor-quay-database" commonAnnotations)) false).obj =
          Object.Deployment out ∧
        out.Spec.Template.Annotations.lookup "quay-registry-hostname" = none ∧
        out.Spec.Template.Annotations.lookup "quay-buildmanager-hostname" = none ∧
        out.Spec.Template.Annotations.lookup "quay-operator-service-endpoint" = none ∧
        (∀ k, k ≠ "quay-registry-hostname" → k ≠ "quay-buildmanager-hostname" →
          k ≠ "quay-operator-service-endpoint" →
          out.Spec.Template.Annotations.lookup k =
            (namedDeployment "quay-config-editor-quay-database"
              commonAnnotations).Spec.Template.Annotations.lookup k) ∧
        out.Spec.Template.Annotations.lookup fieldGroupsAnnotation =
          (namedDeployment "quay-config-editor-quay-database"
            commonAnnotations).Spec.Template.Annotations.lookup fieldGroupsAnnotation :=
  Process_database_annotations nullYAML depSuffixes fieldGroupQuay
    (namedDeployment "quay-config-editor-quay-database" commonAnnotations) false
    (by decide) (by decide)

/-! ## The config editor -/

theorem Process_configEditor_of_allocated {V : Type} (yaml : YAML V)
    (order : List (ComponentKind × String)) (quay : QuayRegistry) (dep : Deployment)
    (skipres : Bool) (annotations : List (String × String))
    (hname : Contains dep.ObjectMeta.Name "quay-config-secret-" = false)
    (hdatabase : Contains dep.ObjectMeta.Name "quay-database" = false)
    (heditor : Contains dep.ObjectMeta.Name "quay-config-editor" = true)
    (hallocated : dep.Spec.Template.Annotations = GoMap.entries annotations) :
    (∀ fgns, quay.FieldGroupNamesForManagedComponents = Except.ok fgns →
        ∃ out : Deployment,
          (Process yaml order quay (Object.Deployment dep) skipres).ret =
              Outcome.ok (Object.Deployment out) ∧
            out.Spec.Template.Annotations.lookup fieldGroupsAnnotation =
              some (Join fgns ",")) ∧
      (∀ err, quay.FieldGroupNamesForManagedComponents = Except.error err →
        (Process yaml order quay (Object.Deployment dep) skipres).ret = Outcome.error err) := by
  have hmeta := staged_objectMeta order quay dep skipres
  have hann := staged_annotations order quay dep skipres
  rw [Process_deployment yaml order quay dep skipres hname]
  constructor
  · intro fgns hfg
    refine ⟨(trimStage skipres (replicasStage order quay
        (overrideStage quay dep))).withTemplateAnnotations
        (GoMap.entries (GoMap.setEntry annotations fieldGroupsAnnotation (Join fgns ","))),
      ?_, ?_⟩
    · simp [processDeployment, annotationStage, hmeta, hdatabase, heditor, hann, hfg,
        hallocated, GoMap.set]
    · rw [Deployment.withTemplateAnnotations_annotations]
      simp [GoMap.lookup, GoMap.toList, find_setEntry_self]
  · intro err hfg
    simp [processDeployment, annotationStage, hmeta, hdatabase, heditor, hfg]

/-- C14. The config-editor Deployment whose pod template carries no annotations (a nil map):
with a field-group derivation that succeeds with `Redis`, `Database`, `Process` does not
return the Deployment with the annotation `quay-managed-fieldgroups`; the assignment of line
143 into the nil map panics. With an allocated, empty annotation map the same call returns
the Deployment annotated `Redis,Database`. -/
theorem Process_configEditor_nil_annotations_panics :
    (Process nullYAML depSuffixes fieldGroupQuay
        (Object.Deployment (namedDeployment "registry-quay-config-editor" GoMap.nil))
        false).ret = Outcome.panic ∧
      (Process nullYAML depSuffixes fieldGroupQuay
        (Object.Deployment (namedDeployment "registry-quay-config-editor" (GoMap.entries [])))
        false).ret =
        Outcome.ok (Object.Deployment (namedDeployment "registry-quay-config-editor"
          (GoMap.entries [("quay-managed-fieldgroups", "Redis,Database")]))) := by
  constructor <;> decide

/-! ## Kinds without a rule -/

theorem Process_unmatched_of_name {V : Type} (yaml : YAML V)
    (order : List (ComponentKind × String)) (quay : QuayRegistry) (obj : Object)
    (skipres : Bool)
    (hkind : obj.kind = ObjectKind.Other ∨ obj.kind = ObjectKind.Secret)
    (hname : Contains obj.objectMeta.Name "quay-config-secret-" = false) :
    Process yaml order quay obj skipres = { obj := obj, ret := Outcome.ok obj } := by
  cases obj <;> simp [Object.kind] at hkind <;>
    simp [Process, configSecretPrefix_dash, hname]

/-- C15. An object of a kind without a rule whose name contains `quay-config-secret-`: for a
config map named `registry-quay-config-secret-abc123` `Process` does not return the object;
the unchecked type assertion of line 40 panics. -/
theorem Process_unmatched_bundle_name_panics :
    (Process nullYAML depSuffixes bareQuay (Object.Other bundleNamedConfigMap) false).ret =
      Outcome.panic := by
  decide

theorem processVolumeClaim_ret_ok (quay : QuayRegistry) (quayComponentLabel : String)
    (pvc : PersistentVolumeClaim) (o : Object)
    (hret : (processVolumeClaim quay quayComponentLabel pvc).ret = Outcome.ok o) :
    ∃ out : PersistentVolumeClaim, o = Object.PersistentVolumeClaim out ∧
      (processVolumeClaim quay quayComponentLabel pvc).obj = o ∧
      out.ObjectMeta = pvc.ObjectMeta := by
  simp only [processVolumeClaim] at hret ⊢
  generalize (if quayComponentLabel = "postgres" then
      quay.GetVolumeSizeOverrideForComponent ComponentPostgres
    else if quayComponentLabel = "clair-postgres" then
      quay.GetVolumeSizeOverrideForComponent ComponentClair
    else none) = resolved at hret ⊢
  cases resolved with
  | none =>
    simp only [Outcome.ok.injEq] at hret
    exact ⟨pvc, hret.symm, hret, rfl⟩
  | some override =>
    simp only at hret ⊢
    generalize (match ResourceList.Storage pvc.Spec.Resources.Requests with
      | some current => if override.Cmp current = -1 then some current else none
      | none => none) = shrinks at hret ⊢
    cases shrinks with
    | some current => simp at hret
    | none =>
      simp only [Outcome.ok.injEq] at hret
      exact ⟨_, hret.symm, hret, rfl⟩

/-- C16. Kind preservation: for every intent, visiting order, object and trim flag, whenever
`Process` returns an object, that object has the kind of the input object (Secret,
Deployment, PersistentVolumeClaim, Job, Route, or other). -/
theorem Process_preserves_kind {V : Type} (yaml : YAML V)
    (order : List (ComponentKind × String)) (quay : QuayRegistry) (obj o : Object)
    (skipres : Bool)
    (hret : (Process yaml order quay obj skipres).ret = Outcome.ok o) :
    o.kind = obj.kind := by
  cases hname : Contains obj.objectMeta.Name "quay-config-secret-" with
  | true =>
    cases obj with
    | Secret s =>
      simp only [Object.objectMeta] at hname
      simp only [Process, Object.objectMeta, configSecretPrefix_dash, hname, if_true] at hret
      cases hflat : FlattenSecret yaml s with
      | ok out =>
        simp only [hflat, Outcome.ok.injEq] at hret
        subst hret
        rfl
      | error err => simp [hflat] at hret
      | panic => simp [hflat] at hret
    | Deployment d =>
      simp [Process, configSecretPrefix_dash, hname] at hret
    | PersistentVolumeClaim p =>
      simp [Process, configSecretPrefix_dash, hname] at hret
    | Job j =>
      simp [Process, configSecretPrefix_dash, hname] at hret
    | Route r =>
      simp [Process, configSecretPrefix_dash, hname] at hret
    | Other m =>
      simp [Process, configSecretPrefix_dash, hname] at hret
  | false =>
    cases obj with
    | Secret s =>
      rw [Process_unmatched_of_name yaml order quay (Object.Secret s) skipres (Or.inr rfl)
        hname] at hret
      simp only [Outcome.ok.injEq] at hret
      rw [← hret]
    | Deployment d =>
      obtain ⟨-, hret⟩ := Process_deployment_ret_ok yaml order quay d skipres o hret
      obtain ⟨out, hout, -⟩ := annotationStage_ret_ok quay _ o hret
      rw [hout]
      rfl
    | PersistentVolumeClaim p =>
      rw [Process_volumeClaim yaml order quay p skipres hname] at hret
      obtain ⟨out, hout, -⟩ := processVolumeClaim_ret_ok quay _ p o hret
      rw [hout]
      rfl
    | Job j =>
      rw [Process_job yaml order quay j skipres hname] at hret
      split_ifs at hret <;>
        · simp only [Outcome.ok.injEq] at hret
          subst hret
          rfl
    | Route r =>
      rw [Process_route yaml order quay r skipres hname] at hret
      unfold processRoute at hret
      split_ifs at hret <;>
        · simp only [Outcome.ok.injEq] at hret
          subst hret
          rfl
    | Other m =>
      rw [Process_unmatched_of_name yaml order quay (Object.Other m) skipres (Or.inl rfl)
        hname] at hret
      simp only [Outcome.ok.injEq] at hret
      rw [← hret]

theorem Process_preserves_kind_witness :
    (Object.Job (trimJob upgradeJob)).kind = (Object.Job upgradeJob).kind :=
  Process_preserves_kind nullYAML depSuffixes bareQuay (Object.Job upgradeJob)
    (Object.Job (trimJob upgradeJob)) true (by decide)

/-! ## Order of the suffix table -/

theorem find_perm_of_unique {α : Type} (p : α → Bool) (l₁ l₂ : List α) (hperm : l₁.Perm l₂)
    (hunique : ∀ a ∈ l₁, ∀ b ∈ l₁, p a = true → p b = true → a = b) :
    l₁.find? p = l₂.find? p := by
  cases h₁ : l₁.find? p with
  | none =>
    rw [List.find?_eq_none] at h₁
    symm
    rw [List.find?_eq_none]
    intro a ha
    exact h₁ a (hperm.mem_iff.2 ha)
  | some a =>
    have ha₁ : a ∈ l₁ := List.mem_of_find?_eq_some h₁
    have hpa : p a = true := List.find?_some h₁
    cases h₂ : l₂.find? p with
    | none =>
      rw [List.find?_eq_none] at h₂
      exact absurd hpa (h₂ a (hperm.mem_iff.1 ha₁))
    | some b =>
      have hb₁ : b ∈ l₁ := hperm.mem_iff.2 (List.mem_of_find?_eq_some h₂)
      have hpb : p b = true := List.find?_some h₂
      rw [hunique a ha₁ b hb₁ hpa hpb]

theorem replicasLoop_eq_chosen (quay : QuayRegistry) (dep : Deployment)
    (order : List (ComponentKind × String)) :
    replicasLoop quay dep order =
      match chosenComponent dep.ObjectMeta.Name order with
      | none => dep
      | some kind =>
        if dep.Spec.Replicas ≠ none then dep
        else { dep with Spec := { dep.Spec with
            Replicas := some ((quay.GetReplicasOverrideForComponent kind).getD 2) } } := by
  induction order with
  | nil => rfl
  | cons p rest ih =>
    obtain ⟨kind, depsuffix⟩ := p
    by_cases hs : HasSuffix dep.ObjectMeta.Name depsuffix = true
    · simp only [replicasLoop, chosenComponent, List.find?_cons, hs, Bool.not_true,
        Option.map_some', Bool.false_eq_true, if_false]
      by_cases hr : dep.Spec.Replicas = none
      · simp only [hr, ne_eq, not_true_eq_false, if_false]
        cases quay.GetReplicasOverrideForComponent kind <;> rfl
      · simp only [ne_eq, hr, not_false_eq_true, if_true]
    · simp only [Bool.not_eq_true] at hs
      simp only [replicasLoop, chosenComponent, List.find?_cons, hs, Bool.not_false, if_true]
      exact ih

theorem chosenComponent_perm (name : String) (order₁ order₂ : List (ComponentKind × String))
    (h₁ : order₁.Perm depSuffixes) (h₂ : order₂.Perm depSuffixes) :
    chosenComponent name order₁ = chosenComponent name order₂ := by
  unfold chosenComponent
  rw [find_perm_of_unique (fun p => HasSuffix name p.2) order₁ order₂ (h₁.trans h₂.symm)]
  intro a ha b hb hpa hpb
  exact depSuffixes_unique name a b (h₁.mem_iff.1 ha) (h₁.mem_iff.1 hb) hpa hpb

/-- C19. Replica-rule determinism: no string ends with more than one of the suffixes
`clair-app`, `quay-mirror`, `quay-app`; so for any two orders in which the suffix table can
be visited, for every Deployment and intent the component the replica loop stops at and the
Deployment the loop leaves are the same, and for every object and trim flag `Process` gives
the same result (the object written and the value returned, the replica count with it). -/
theorem Process_replicas_order_independent {V : Type} (yaml : YAML V)
    (order₁ order₂ : List (ComponentKind × String)) (quay : QuayRegistry) (obj : Object)
    (skipres : Bool)
    (h₁ : order₁.Perm depSuffixes) (h₂ : order₂.Perm depSuffixes) :
    (∀ s : String,
        ¬ (HasSuffix s "clair-app" = true ∧ HasSuffix s "quay-mirror" = true) ∧
        ¬ (HasSuffix s "clair-app" = true ∧ HasSuffix s "quay-app" = true) ∧
        ¬ (HasSuffix s "quay-mirror" = true ∧ HasSuffix s "quay-app" = true)) ∧
      (∀ dep : Deployment,
        chosenComponent dep.ObjectMeta.Name order₁ =
            chosenComponent dep.ObjectMeta.Name order₂ ∧
          replicasLoop quay dep order₁ = replicasLoop quay dep order₂) ∧
      Process yaml order₁ quay obj skipres = Process yaml order₂ quay obj skipres := by
  have hloop : ∀ dep : Deployment,
      replicasLoop quay dep order₁ = replicasLoop quay dep order₂ := by
    intro dep
    rw [replicasLoop_eq_chosen, replicasLoop_eq_chosen,
      chosenComponent_perm dep.ObjectMeta.Name order₁ order₂ h₁ h₂]
  refine ⟨?_, fun dep => ⟨chosenComponent_perm _ _ _ h₁ h₂, hloop dep⟩, ?_⟩
  · intro s
    refine ⟨?_, ?_, ?_⟩
    · rintro ⟨ha, hb⟩
      have h := depSuffixes_unique s (ComponentClair, "clair-app")
        (ComponentMirror, "quay-mirror") (by decide) (by decide) ha hb
      exact absurd h (by decide)
    · rintro ⟨ha, hb⟩
      have h := depSuffixes_unique s (ComponentClair, "clair-app")
        (ComponentQuay, "quay-app") (by decide) (by decide) ha hb
      exact absurd h (by decide)
    · rintro ⟨ha, hb⟩
      have h := depSuffixes_unique s (ComponentMirror, "quay-mirror")
        (ComponentQuay, "quay-app") (by decide) (by decide) ha hb
      exact absurd h (by decide)
  · cases obj with
    | Deployment dep => simp only [Process, processDeployment, replicasStage, hloop]
    | Secret s => rfl
    | PersistentVolumeClaim p => rfl
    | Job j => rfl
    | Route r => rfl
    | Other m => rfl

theorem Process_replicas_order_independent_witness :
    (∀ s : String,
        ¬ (HasSuffix s "clair-app" = true ∧ HasSuffix s "quay-mirror" = true) ∧
        ¬ (HasSuffix s "clair-app" = true ∧ HasSuffix s "quay-app" = true) ∧
        ¬ (HasSuffix s "quay-mirror" = true ∧ HasSuffix s "quay-app" = true)) ∧
      (∀ dep : Deployment,
        chosenComponent dep.ObjectMeta.Name depSuffixes =
            chosenComponent dep.ObjectMeta.Name depSuffixes.reverse ∧
          replicasLoop (replicasQuay 5) dep depSuffixes =
            replicasLoop (replicasQuay 5) dep depSuffixes.reverse) ∧
      Process nullYAML depSuffixes (replicasQuay 5)
          (Object.Deployment (quayAppDeployment none)) false =
        Process nullYAML depSuffixes.reverse (replicasQuay 5)
          (Object.Deployment (quayAppDeployment none)) false :=
  Process_replicas_order_independent nullYAML depSuffixes depSuffixes.reverse (replicasQuay 5)
    (Object.Deployment (quayAppDeployment none)) false (List.Perm.refl _)
    (List.reverse_perm _)

/-! ## Secrets -/

theorem GoMap.mem_toList_delete {β : Type} (m : GoMap β) (k : String) (kv : String × β) :
    kv ∈ (m.delete k).toList ↔ kv ∈ m.toList ∧ kv.1 ≠ k := by
  cases m with
  | nil => simp [GoMap.delete, GoMap.toList]
  | entries l => simp [GoMap.delete, GoMap.toList, List.mem_filter]

theorem GoMap.lookup_eq_none {β : Type} (m : GoMap β) (k : String) :
    m.lookup k = none ↔ ∀ kv ∈ m.toList, kv.1 ≠ k := by
  simp [GoMap.lookup, List.find?_eq_none]

theorem GoMap.hasKey_eq_false {β : Type} (m : GoMap β) (k : String) :
    m.hasKey k = false ↔ ∀ kv ∈ m.toList, kv.1 ≠ k := by
  rw [← GoMap.lookup_eq_none]
  cases h : m.lookup k <;> simp [GoMap.hasKey, h]

theorem mem_foldl_delete {β : Type} (p : String → Bool) (visited : List (String × β))
    (data : GoMap β) (kv : String × β)
    (hkv : kv ∈ (visited.foldl (fun acc x => if p x.1 then acc.delete x.1 else acc)
      data).toList) :
    kv ∈ data.toList ∧ ∀ x ∈ visited, p x.1 = true → kv.1 ≠ x.1 := by
  induction visited generalizing data with
  | nil => exact ⟨hkv, fun x hx => absurd hx (List.not_mem_nil x)⟩
  | cons a rest ih =>
    rw [List.foldl_cons] at hkv
    obtain ⟨hmem, hrest⟩ := ih _ hkv
    by_cases hp : p a.1 = true
    · rw [if_pos hp, GoMap.mem_toList_delete] at hmem
      refine ⟨hmem.1, ?_⟩
      intro x hx hpx
      rcases List.mem_cons.1 hx with rfl | hx
      · exact hmem.2
      · exact hrest x hx hpx
    · rw [if_neg hp] at hmem
      refine ⟨hmem, ?_⟩
      intro x hx hpx
      rcases List.mem_cons.1 hx with rfl | hx
      · exact absurd hpx hp
      · exact hrest x hx hpx

theorem mem_stripSecretData (data : GoMap Bytes) (kv : String × Bytes)
    (hkv : kv ∈ (stripSecretData data).toList) :
    kv.1 ≠ "ssl.cert" ∧ kv.1 ≠ "ssl.key" ∧ kv.1 ≠ "clair-ssl.key" ∧ kv.1 ≠ "clair-ssl.crt" ∧
      HasPrefix kv.1 "extra_ca_cert_" = false := by
  unfold stripSecretData at hkv
  obtain ⟨hmem, hvisited⟩ :=
    mem_foldl_delete (fun k => HasPrefix k "extra_ca_cert_") _ _ kv hkv
  have hpre : HasPrefix kv.1 "extra_ca_cert_" = false := by
    cases h : HasPrefix kv.1 "extra_ca_cert_" with
    | false => rfl
    | true => exact absurd rfl (hvisited kv hmem h)
  simp only [GoMap.mem_toList_delete] at hmem
  exact ⟨hmem.1.1.1.2, hmem.1.1.2, hmem.1.2, hmem.2, hpre⟩

theorem Process_secret {V : Type} (yaml : YAML V) (order : List (ComponentKind × String))
    (quay : QuayRegistry) (secret : Secret) (skipres : Bool)
    (hname : Contains secret.ObjectMeta.Name "quay-config-secret-" = true) :
    Process yaml order quay (Object.Secret secret) skipres =
      match FlattenSecret yaml secret with
      | Outcome.error err => { obj := Object.Secret secret, ret := Outcome.error err }
      | Outcome.panic => { obj := Object.Secret secret, ret := Outcome.panic }
      | Outcome.ok configBundleSecret =>
        { obj := Object.Secret secret
          ret := Outcome.ok (Object.Secret
            { configBundleSecret with Data := stripSecretData configBundleSecret.Data }) } := by
  simp [Process, Object.objectMeta, configSecretPrefix_dash, hname]

/-- C11. Secret stripping: for every Secret whose name contains `quay-config-secret-` and for
which `Process` returns an object, the object is a Secret whose data has none of the keys
`ssl.cert`, `ssl.key`, `clair-ssl.key`, `clair-ssl.crt` and no key that starts with
`extra_ca_cert_`, whatever keys the input carried. -/
theorem Process_secret_stripped {V : Type} (yaml : YAML V)
    (order : List (ComponentKind × String)) (quay : QuayRegistry) (secret : Secret)
    (skipres : Bool) (o : Object)
    (hname : Contains secret.ObjectMeta.Name "quay-config-secret-" = true)
    (hret : (Process yaml order quay (Object.Secret secret) skipres).ret = Outcome.ok o) :
    ∃ out : Secret, o = Object.Secret out ∧
      out.Data.hasKey "ssl.cert" = false ∧ out.Data.hasKey "ssl.key" = false ∧
      out.Data.hasKey "clair-ssl.key" = false ∧ out.Data.hasKey "clair-ssl.crt" = false ∧
      ∀ k, HasPrefix k "extra_ca_cert_" = true → out.Data.hasKey k = false := by
  rw [Process_secret yaml order quay secret skipres hname] at hret
  cases hflat : FlattenSecret yaml secret with
  | error err => simp [hflat] at hret
  | panic => simp [hflat] at hret
  | ok flattened =>
    simp only [hflat, Outcome.ok.injEq] at hret
    refine ⟨{ flattened with Data := stripSecretData flattened.Data }, hret.symm, ?_⟩
    simp only [GoMap.hasKey_eq_false]
    refine ⟨?_, ?_, ?_, ?_, ?_⟩
    · exact fun kv hkv => (mem_stripSecretData _ kv hkv).1
    · exact fun kv hkv => (mem_stripSecretData _ kv hkv).2.1
    · exact fun kv hkv => (mem_stripSecretData _ kv hkv).2.2.1
    · exact fun kv hkv => (mem_stripSecretData _ kv hkv).2.2.2.1
    · intro k hk kv hkv heq
      have h := (mem_stripSecretData _ kv hkv).2.2.2.2
      rw [heq, hk] at h
      exact absurd h (by decide)

theorem Process_secret_stripped_witness :
    (Process blockYAML depSuffixes bareQuay (Object.Secret (bundleSecret bundleData)) false).ret =
        Outcome.ok (Object.Secret (bundleSecret
          (GoMap.entries [("config.yaml", "a: 1\nb: 2\n"), ("license", "L")]))) ∧
      ∃ out : Secret,
        Object.Secret (bundleSecret
            (GoMap.entries [("config.yaml", "a: 1\nb: 2\n"), ("license", "L")])) =
          Object.Secret out ∧
        out.Data.hasKey "ssl.cert" = false ∧ out.Data.hasKey "ssl.key" = false ∧
        out.Data.hasKey "clair-ssl.key" = false ∧ out.Data.hasKey "clair-ssl.crt" = false ∧
        ∀ k, HasPrefix k "extra_ca_cert_" = true → out.Data.hasKey k = false :=
  ⟨by decide,
    Process_secret_stripped blockYAML depSuffixes bareQuay (bundleSecret bundleData) false
      (Object.Secret (bundleSecret
        (GoMap.entries [("config.yaml", "a: 1\nb: 2\n"), ("license", "L")])))
      (by decide) (by decide)⟩

theorem mergeConfig_entries {V : Type} (pairs : List (String × V)) (l : List (String × V)) :
    ∃ l', mergeConfig (GoMap.entries l) pairs = some (GoMap.entries l') ∧
      ∀ k, (GoMap.entries l').lookup k = overlaidValue (GoMap.entries l) pairs k := by
  induction pairs generalizing l with
  | nil =>
    refine ⟨l, rfl, ?_⟩
    intro k
    simp [overlaidValue]
  | cons kv rest ih =>
    obtain ⟨ck, cv⟩ := kv
    obtain ⟨l', hl', hlook⟩ := ih (GoMap.setEntry l ck cv)
    refine ⟨l', ?_, ?_⟩
    · simp only [mergeConfig, GoMap.set]
      exact hl'
    · intro k
      rw [hlook k]
      unfold overlaidValue
      by_cases hk : ck = k
      · have hfilter : ((ck, cv) :: rest).filter (fun kv => kv.1 = k) =
            (ck, cv) :: rest.filter (fun kv => kv.1 = k) := by
          simp [List.filter_cons, hk]
        rw [hfilter, List.getLast?_cons]
        cases hlast : (rest.filter (fun kv => decide (kv.1 = k))).getLast? with
        | none =>
          subst hk
          simp [GoMap.lookup, GoMap.toList, find_setEntry_self]
        | some x => simp
      · have hfilter : ((ck, cv) :: rest).filter (fun kv => kv.1 = k) =
            rest.filter (fun kv => kv.1 = k) := by
          simp [List.filter_cons, hk]
        rw [hfilter]
        cases hlast : (rest.filter (fun kv => decide (kv.1 = k))).getLast? with
        | none =>
          simp only [GoMap.lookup, GoMap.toList]
          rw [find_setEntry_ne l ck k cv (Ne.symm hk)]
        | some x => rfl

theorem mergeConfig_append {V : Type} (a b : List (String × V)) (m : GoMap V) :
    mergeConfig m (a ++ b) =
      match mergeConfig m a with
      | none => none
      | some merged => mergeConfig merged b := by
  induction a generalizing m with
  | nil => rfl
  | cons kv rest ih =>
    obtain ⟨ck, cv⟩ := kv
    simp only [List.cons_append, mergeConfig]
    cases m.set ck cv with
    | none => rfl
    | some merged => exact ih merged

theorem flattenLoop_ok {V : Type} (yaml : YAML V) (visited : List (String × Bytes))
    (flattenedConfig merged : GoMap V) (data : GoMap Bytes)
    (hparse : ∀ kv ∈ visited, Contains kv.1 ".config.yaml" = true →
      ∃ valueYAML, yaml.Unmarshal kv.2 = Except.ok valueYAML)
    (hmerged : mergeConfig flattenedConfig (fragmentPairs yaml visited) = some merged) :
    flattenLoop yaml visited flattenedConfig data =
      Outcome.ok (merged, visited.foldl
        (fun acc x => if Contains x.1 ".config.yaml" then acc.delete x.1 else acc) data) := by
  induction visited generalizing flattenedConfig data with
  | nil =>
    simp only [fragmentPairs, mergeConfig, Option.some.injEq] at hmerged
    simp [flattenLoop, hmerged]
  | cons kv rest ih =>
    obtain ⟨key, file⟩ := kv
    have hrest : ∀ kv ∈ rest, Contains kv.1 ".config.yaml" = true →
        ∃ valueYAML, yaml.Unmarshal kv.2 = Except.ok valueYAML :=
      fun kv hkv => hparse kv (List.mem_cons_of_mem _ hkv)
    cases hc : Contains key ".config.yaml" with
    | false =>
      simp only [fragmentPairs, hc, Bool.false_eq_true, if_false] at hmerged
      simp only [flattenLoop, hc, Bool.not_false, if_true, List.foldl_cons,
        Bool.false_eq_true, if_false]
      exact ih flattenedConfig data hrest hmerged
    | true =>
      obtain ⟨valueYAML, hvalue⟩ := hparse (key, file) (List.mem_cons_self _ _) hc
      simp only [fragmentPairs, hc, if_true, hvalue, mergeConfig_append] at hmerged
      cases hmid : mergeConfig flattenedConfig valueYAML.toList with
      | none => simp [hmid] at hmerged
      | some mid =>
        simp only [hmid] at hmerged
        simp only [flattenLoop, hc, Bool.not_true, Bool.false_eq_true, if_false, hvalue, hmid,
          List.foldl_cons, if_true]
        exact ih mid (data.delete key) hrest hmerged

theorem foldl_delete_entries {β : Type} (p : String → Bool) (visited : List (String × β))
    (l : List (String × β)) :
    ∃ l', visited.foldl (fun acc x => if p x.1 then acc.delete x.1 else acc)
      (GoMap.entries l) = GoMap.entries l' := by
  induction visited generalizing l with
  | nil => exact ⟨l, rfl⟩
  | cons a rest ih =>
    rw [List.foldl_cons]
    by_cases hp : p a.1 = true
    · rw [if_pos hp]
      exact ih _
    · rw [if_neg hp]
      exact ih _

theorem lookup_foldl_delete {β : Type} (p : String → Bool) (visited : List (String × β))
    (data : GoMap β) (k : String) (hk : p k = false) :
    (visited.foldl (fun acc x => if p x.1 then acc.delete x.1 else acc) data).lookup k =
      data.lookup k := by
  induction visited generalizing data with
  | nil => rfl
  | cons a rest ih =>
    rw [List.foldl_cons, ih]
    by_cases hp : p a.1 = true
    · rw [if_pos hp]
      apply GoMap.lookup_delete_ne
      intro heq
      rw [heq, hp] at hk
      exact absurd hk (by decide)
    · rw [if_neg hp]

theorem GoMap.entries_of_lookup {β : Type} (m : GoMap β) (k : String) (v : β)
    (h : m.lookup k = some v) : ∃ l, m = GoMap.entries l := by
  cases m with
  | nil => simp [GoMap.lookup, GoMap.toList] at h
  | entries l => exact ⟨l, rfl⟩

/-- Flattening on an allocated base: for every secret that has a `config.yaml` payload which
parses to an allocated key-value mapping `base`, and whose payloads under the keys containing
`.config.yaml` all parse, with a YAML library that serializes every mapping, `FlattenSecret`
returns a
secret whose data has no key containing `.config.yaml`, whose keys other than `config.yaml`
are those of the input with unchanged payloads, and whose `config.yaml` payload is the
serialization of a mapping that gives every key the value of `base` overlaid with the
key-value pairs of every fragment (the value of the last fragment pair for the key when
there is one, which replaces the value of `base`, the value of `base` otherwise). -/
theorem FlattenSecret_flattens {V : Type} (yaml : YAML V) (configBundle : Secret)
    (payload : Bytes) (base : List (String × V))
    (hkey : configBundle.Data.lookup "config.yaml" = some payload)
    (hbase : yaml.Unmarshal payload = Except.ok (GoMap.entries base))
    (hfragments : ∀ kv ∈ configBundle.Data.toList, Contains kv.1 ".config.yaml" = true →
      ∃ valueYAML, yaml.Unmarshal kv.2 = Except.ok valueYAML)
    (hmarshal : ∀ m, ∃ text, yaml.Marshal m = Except.ok text) :
    ∃ (out : Secret) (merged : GoMap V) (text : Bytes),
      FlattenSecret yaml configBundle = Outcome.ok out ∧
        out.ObjectMeta = configBundle.ObjectMeta ∧
        (∀ k, Contains k ".config.yaml" = true → out.Data.hasKey k = false) ∧
        (∀ k, Contains k ".config.yaml" = false → k ≠ "config.yaml" →
          out.Data.lookup k = configBundle.Data.lookup k) ∧
        (∀ k, merged.lookup k = overlaidValue (GoMap.entries base)
          (fragmentPairs yaml configBundle.Data.toList) k) ∧
        yaml.Marshal merged = Except.ok text ∧
        out.Data.lookup "config.yaml" = some text := by
  obtain ⟨d, hd⟩ := GoMap.entries_of_lookup _ _ _ hkey
  obtain ⟨l', hmerge, hlook⟩ :=
    mergeConfig_entries (fragmentPairs yaml configBundle.Data.toList) base
  have hloop := flattenLoop_ok yaml configBundle.Data.toList (GoMap.entries base)
    (GoMap.entries l') configBundle.Data hfragments hmerge
  obtain ⟨text, htext⟩ := hmarshal (GoMap.entries l')
  obtain ⟨d', hd'⟩ := foldl_delete_entries (fun k => Contains k ".config.yaml")
    (GoMap.entries d).toList d
  rw [← hd] at hd'
  have hnone : ∀ k, Contains k ".config.yaml" = true → (GoMap.entries d').lookup k = none := by
    intro k hk
    rw [GoMap.lookup_eq_none, ← hd']
    intro kv hkv heq
    obtain ⟨hmem, hvisited⟩ :=
      mem_foldl_delete (fun k => Contains k ".config.yaml") _ _ kv hkv
    exact hvisited kv hmem (by rw [heq]; exact hk) rfl
  have hkeep : ∀ k, Contains k ".config.yaml" = false →
      (GoMap.entries d').lookup k = configBundle.Data.lookup k := by
    intro k hk
    rw [← hd']
    exact lookup_foldl_delete (fun k => Contains k ".config.yaml") _ _ k hk
  have hset : ∀ k, k ≠ "config.yaml" →
      (GoMap.entries (GoMap.setEntry d' "config.yaml" text)).lookup k =
        (GoMap.entries d').lookup k := by
    intro k hk
    simp only [GoMap.lookup, GoMap.toList]
    rw [find_setEntry_ne d' "config.yaml" k text hk]
  refine ⟨{ configBundle with Data := GoMap.entries (GoMap.setEntry d' "config.yaml" text) },
    GoMap.entries l', text, ?_, rfl, ?_, ?_, hlook, htext, ?_⟩
  · simp only [FlattenSecret, hkey, Option.getD_some, hbase, hloop, htext, hd', GoMap.set]
  · intro k hk
    have hne : k ≠ "config.yaml" := by
      intro heq
      rw [heq] at hk
      exact absurd hk (by decide)
    have hlookup : (GoMap.entries (GoMap.setEntry d' "config.yaml" text)).lookup k = none := by
      rw [hset k hne]
      exact hnone k hk
    simp [GoMap.hasKey, hlookup]
  · intro k hk hne
    show (GoMap.entries (GoMap.setEntry d' "config.yaml" text)).lookup k = _
    rw [hset k hne]
    exact hkeep k hk
  · show (GoMap.entries (GoMap.setEntry d' "config.yaml" text)).lookup "config.yaml" = _
    simp [GoMap.lookup, GoMap.toList, find_setEntry_self]

theorem FlattenSecret_flattens_witness :
    FlattenSecret blockYAML (bundleSecret (GoMap.entries
          [("config.yaml", "a: 1\n"), ("x.config.yaml", "b: 2\n")])) =
        Outcome.ok (bundleSecret (GoMap.entries [("config.yaml", "a: 1\nb: 2\n")])) ∧
      ∃ (out : Secret) (merged : GoMap String) (text : Bytes),
        FlattenSecret blockYAML (bundleSecret (GoMap.entries
            [("config.yaml", "a: 1\n"), ("x.config.yaml", "b: 2\n")])) = Outcome.ok out ∧
          out.ObjectMeta = (bundleSecret (GoMap.entries
            [("config.yaml", "a: 1\n"), ("x.config.yaml", "b: 2\n")])).ObjectMeta ∧
          (∀ k, Contains k ".config.yaml" = true → out.Data.hasKey k = false) ∧
          (∀ k, Contains k ".config.yaml" = false → k ≠ "config.yaml" →
            out.Data.lookup k = (bundleSecret (GoMap.entries
              [("config.yaml", "a: 1\n"), ("x.config.yaml", "b: 2\n")])).Data.lookup k) ∧
          (∀ k, merged.lookup k = overlaidValue (GoMap.entries [("a", "1")])
            (fragmentPairs blockYAML (bundleSecret (GoMap.entries
              [("config.yaml", "a: 1\n"), ("x.config.yaml", "b: 2\n")])).Data.toList) k) ∧
          blockYAML.Marshal merged = Except.ok text ∧
          out.Data.lookup "config.yaml" = some text :=
  ⟨by decide,
    FlattenSecret_flattens blockYAML
      (bundleSecret (GoMap.entries [("config.yaml", "a: 1\n"), ("x.config.yaml", "b: 2\n")]))
      "a: 1\n" [("a", "1")] (by decide) rfl
      (by
        intro kv hkv hfragment
        simp only [bundleSecret, GoMap.toList, List.mem_cons, List.mem_singleton,
          List.not_mem_nil, or_false] at hkv
        rcases hkv with rfl | rfl
        · exact absurd hfragment (by decide)
        · exact ⟨GoMap.entries [("b", "2")], rfl⟩)
      (by
        intro m
        cases m with
        | nil => exact ⟨_, rfl⟩
        | entries l => exact ⟨_, rfl⟩)⟩

/-- C12. A secret whose payloads all parse and for which `FlattenSecret` returns no secret:
the empty `config.yaml` payload parses, leaving the mapping nil, and the fragment
`x.config.yaml` holding `b: 2` parses to one pair, yet on the secret made of the two
`FlattenSecret` does not return the flattened secret; the assignment of line 253 into the nil
`flattenedConfig` panics. On the secret of the specification's example, `config.yaml` holding
`a: 1` next to the same fragment, it returns the single `config.yaml` holding both pairs. -/
theorem FlattenSecret_parsed_nil_base_panics :
    blockYAML.Unmarshal "" = Except.ok GoMap.nil ∧
      blockYAML.Unmarshal "b: 2\n" = Except.ok (GoMap.entries [("b", "2")]) ∧
      FlattenSecret blockYAML (bundleSecret (GoMap.entries
        [("config.yaml", ""), ("x.config.yaml", "b: 2\n")])) = Outcome.panic ∧
      FlattenSecret blockYAML (bundleSecret (GoMap.entries
        [("config.yaml", "a: 1\n"), ("x.config.yaml", "b: 2\n")])) =
        Outcome.ok (bundleSecret (GoMap.entries [("config.yaml", "a: 1\nb: 2\n")])) := by
  refine ⟨rfl, rfl, ?_, ?_⟩ <;> decide

/-- C18. Secrets on which nothing fails to parse and `FlattenSecret` still returns no
secret: with no `config.yaml` key, or with an empty `config.yaml` payload, next to the
fragment `x.config.yaml` holding `b: 2`, the assignment of line 253 into the nil
`flattenedConfig` panics; with no data at all the assignment of line 264 into the nil `Data`
panics. -/
theorem FlattenSecret_nil_map_panics :
    FlattenSecret blockYAML (bundleSecret (GoMap.entries [("x.config.yaml", "b: 2\n")])) =
        Outcome.panic ∧
      FlattenSecret blockYAML (bundleSecret (GoMap.entries
        [("config.yaml", ""), ("x.config.yaml", "b: 2\n")])) = Outcome.panic ∧
      FlattenSecret blockYAML (bundleSecret GoMap.nil) = Outcome.panic := by
  refine ⟨?_, ?_, ?_⟩ <;> decide

/-! ## Environment overrides -/

theorem lastOverride_cons (o : EnvVar) (rest : List EnvVar) (n : String) :
    lastOverride (o :: rest) n =
      match lastOverride rest n with
      | some x => some x
      | none => if o.Name = n then some o else none := by
  unfold lastOverride
  by_cases h : o.Name = n
  · simp only [List.filter_cons, h, decide_True, if_true, List.getLast?_cons]
    cases (rest.filter (fun ov => decide (ov.Name = n))).getLast? <;> rfl
  · simp only [List.filter_cons, h, decide_False, Bool.false_eq_true, if_false]
    cases (rest.filter (fun ov => decide (ov.Name = n))).getLast? <;> rfl

theorem lastOverride_eq_none (overrides : List EnvVar) (n : String) :
    lastOverride overrides n = none ↔ ∀ o ∈ overrides, o.Name ≠ n := by
  simp [lastOverride, List.filter_eq_nil_iff]

theorem find_upsertEnv_self (env : List EnvVar) (newv : EnvVar) :
    (upsertEnv env newv).find? (fun e => e.Name = newv.Name) = some newv := by
  induction env with
  | nil => simp [upsertEnv]
  | cons a rest ih =>
    by_cases h : a.Name = newv.Name
    · simp [upsertEnv, h]
    · simp [upsertEnv, h, List.find?_cons, ih]

theorem find_upsertEnv_ne (env : List EnvVar) (newv : EnvVar) (n : String)
    (hn : newv.Name ≠ n) :
    (upsertEnv env newv).find? (fun e => e.Name = n) = env.find? (fun e => e.Name = n) := by
  induction env with
  | nil => simp [upsertEnv, hn]
  | cons a rest ih =>
    by_cases h : a.Name = newv.Name
    · have han : ¬ a.Name = n := fun h' => hn (h.symm.trans h')
      rw [upsertEnv, if_neg (not_not.2 h)]
      simp [List.find?_cons, han, hn]
    · rw [upsertEnv, if_pos h]
      by_cases han : a.Name = n
      · simp [List.find?_cons, han]
      · simp [List.find?_cons, han, ih]

theorem find_foldl_upsertEnv_none (overrides : List EnvVar) (env : List EnvVar) (n : String)
    (hnone : lastOverride overrides n = none) :
    (overrides.foldl upsertEnv env).find? (fun e => e.Name = n) =
      env.find? (fun e => e.Name = n) := by
  induction overrides generalizing env with
  | nil => rfl
  | cons o rest ih =>
    rw [lastOverride_eq_none] at hnone
    rw [List.foldl_cons, ih _ ((lastOverride_eq_none rest n).2
      (fun x hx => hnone x (List.mem_cons_of_mem _ hx)))]
    exact find_upsertEnv_ne env o n (hnone o (List.mem_cons_self _ _))

theorem find_foldl_upsertEnv (overrides : List EnvVar) (env : List EnvVar) (n : String)
    (ov : EnvVar) (hlast : lastOverride overrides n = some ov) :
    (overrides.foldl upsertEnv env).find? (fun e => e.Name = n) = some ov := by
  induction overrides generalizing env with
  | nil => simp [lastOverride] at hlast
  | cons o rest ih =>
    rw [lastOverride_cons] at hlast
    rw [List.foldl_cons]
    cases hrest : lastOverride rest n with
    | some x =>
      rw [hrest] at hlast
      simp only [Option.some.injEq] at hlast
      subst hlast
      exact ih _ hrest
    | none =>
      rw [hrest] at hlast
      by_cases ho : o.Name = n
      · simp only [ho, if_true, Option.some.injEq] at hlast
        subst hlast
        rw [find_foldl_upsertEnv_none rest _ n hrest, ← ho]
        exact find_upsertEnv_self env o
      · simp [ho] at hlast

theorem filter_upsertEnv (p : String → Bool) (env : List EnvVar) (newv : EnvVar)
    (hp : p newv.Name = false) :
    (upsertEnv env newv).filter (fun e => p e.Name) = env.filter (fun e => p e.Name) := by
  induction env with
  | nil => simp [upsertEnv, hp]
  | cons a rest ih =>
    by_cases h : a.Name = newv.Name
    · rw [upsertEnv, if_neg (not_not.2 h)]
      simp [List.filter_cons, hp, h]
    · rw [upsertEnv, if_pos h]
      simp [List.filter_cons, ih]

theorem filter_foldl_upsertEnv (p : String → Bool) (overrides : List EnvVar)
    (env : List EnvVar) (hp : ∀ o ∈ overrides, p o.Name = false) :
    (overrides.foldl upsertEnv env).filter (fun e => p e.Name) =
      env.filter (fun e => p e.Name) := by
  induction overrides generalizing env with
  | nil => rfl
  | cons o rest ih =>
    rw [List.foldl_cons, ih _ (fun x hx => hp x (List.mem_cons_of_mem _ hx))]
    exact filter_upsertEnv p env o (hp o (List.mem_cons_self _ _))

theorem overrideEnv_eq_map (overrides : List EnvVar) (containers : List Container) :
    overrideEnv overrides containers =
      containers.map (fun c => { c with Env := overrides.foldl upsertEnv c.Env }) := by
  unfold overrideEnv
  induction overrides generalizing containers with
  | nil => simp
  | cons o rest ih =>
    rw [List.foldl_cons, ih]
    simp [List.map_map, Function.comp_def, UpsertContainerEnv]

theorem annotationStage_obj (quay : QuayRegistry) (dep : Deployment) :
    ∃ d : Deployment, (annotationStage quay dep).obj = Object.Deployment d ∧
      (∀ o, (annotationStage quay dep).ret = Outcome.ok o → o = Object.Deployment d) ∧
      d.ObjectMeta = dep.ObjectMeta ∧ d.Spec.Replicas = dep.Spec.Replicas ∧
      d.Spec.Template.Spec = dep.Spec.Template.Spec := by
  unfold annotationStage
  split_ifs
  · exact ⟨_, rfl, fun o ho => (Outcome.ok.inj ho).symm, rfl, rfl, rfl⟩
  · exact ⟨_, rfl, fun o ho => (Outcome.ok.inj ho).symm, rfl, rfl, rfl⟩
  · cases hfg : quay.FieldGroupNamesForManagedComponents with
    | error err =>
      simp only [hfg]
      exact ⟨dep, rfl, fun o ho => by simp at ho, rfl, rfl, rfl⟩
    | ok fgns =>
      cases hann : dep.Spec.Template.Annotations.set fieldGroupsAnnotation (Join fgns ",") with
      | none =>
        simp only [hfg, hann]
        exact ⟨dep, rfl, fun o ho => by simp at ho, rfl, rfl, rfl⟩
      | some annotations =>
        simp only [hfg, hann]
        exact ⟨_, rfl, fun o ho => (Outcome.ok.inj ho).symm, rfl, rfl, rfl⟩

theorem staged_containers (order : List (ComponentKind × String)) (quay : QuayRegistry)
    (dep : Deployment) (skipres : Bool) :
    (trimStage skipres (replicasStage order quay dep)).Spec.Template.Spec.Containers =
      if skipres then trimResources dep.Spec.Template.Spec.Containers
      else dep.Spec.Template.Spec.Containers := by
  cases skipres with
  | true => simp [trimStage, PodTemplateSpec.withContainers, replicasStage_template]
  | false => simp [trimStage, replicasStage_template]

theorem overrideStage_containers (quay : QuayRegistry) (dep : Deployment) :
    (overrideStage quay dep).Spec.Template.Spec.Containers =
      if quay.ComponentIsManaged (labelsGet dep.ObjectMeta.Annotations "quay-component") then
        overrideEnv (quay.GetEnvOverrideForComponent
          (labelsGet dep.ObjectMeta.Annotations "quay-component"))
          dep.Spec.Template.Spec.Containers
      else dep.Spec.Template.Spec.Containers := by
  simp only [overrideStage]
  split_ifs <;> rfl

theorem trimResources_env (containers : List Container) :
    (trimResources containers).map Container.Env = containers.map Container.Env := by
  simp [trimResources, List.map_map, Function.comp_def]

/-- C17. Environment override through `Process`: for every Deployment outside the
config-secret names, with its component read from its `quay-component` annotation, the
Deployment that `Process` leaves, which is the one it returns whenever it returns an object,
has as many pod-template containers as the input. If the component is managed in the intent,
then container by container, in order, the name is unchanged, for every name `n` of the
override sequence of that component the environment holds the last override pair named `n`
as its first entry named `n`, and the entries whose names occur in no override pair are
those of the input, in the same order. If the component is not managed, every container has
the environment list of the input. -/
theorem Process_env_override {V : Type} (yaml : YAML V)
    (order : List (ComponentKind × String)) (quay : QuayRegistry) (dep : Deployment)
    (skipres : Bool)
    (hname : Contains dep.ObjectMeta.Name "quay-config-secret-" = false) :
    ∃ out : Deployment,
      (Process yaml order quay (Object.Deployment dep) skipres).obj = Object.Deployment out ∧
        (∀ o, (Process yaml order quay (Object.Deployment dep) skipres).ret = Outcome.ok o →
          o = Object.Deployment out) ∧
        out.Spec.Template.Spec.Containers.length = dep.Spec.Template.Spec.Containers.length ∧
        (quay.ComponentIsManaged (labelsGet dep.ObjectMeta.Annotations "quay-component") = true →
          List.Forall₂
            (fun c c' => c'.Name = c.Name ∧
              (∀ n ov, lastOverride (quay.GetEnvOverrideForComponent
                  (labelsGet dep.ObjectMeta.Annotations "quay-component")) n = some ov →
                ov ∈ c'.Env ∧ c'.Env.find? (fun e => e.Name = n) = some ov) ∧
              c'.Env.filter (fun e => decide (e.Name ∉ (quay.GetEnvOverrideForComponent
                  (labelsGet dep.ObjectMeta.Annotations "quay-component")).map EnvVar.Name)) =
                c.Env.filter (fun e => decide (e.Name ∉ (quay.GetEnvOverrideForComponent
                  (labelsGet dep.ObjectMeta.Annotations "quay-component")).map EnvVar.Name)))
            dep.Spec.Template.Spec.Containers out.Spec.Template.Spec.Containers) ∧
        (quay.ComponentIsManaged (labelsGet dep.ObjectMeta.Annotations "quay-component") =
            false →
          out.Spec.Template.Spec.Containers.map Container.Env =
            dep.Spec.Template.Spec.Containers.map Container.Env) := by
  rw [Process_deployment yaml order quay dep skipres hname]
  obtain ⟨out, hobj, hret, -, -, hspec⟩ := annotationStage_obj quay
    (trimStage skipres (replicasStage order quay (overrideStage quay dep)))
  have hcontainers : out.Spec.Template.Spec.Containers =
      if skipres then
        trimResources (overrideStage quay dep).Spec.Template.Spec.Containers
      else (overrideStage quay dep).Spec.Template.Spec.Containers := by
    rw [hspec, staged_containers]
  refine ⟨out, hobj, hret, ?_, ?_, ?_⟩
  · rw [← List.length_map _ Container.Name, ← List.length_map _ Container.Name, hcontainers]
    split_ifs
    · rw [trimResources_names, overrideStage_names]
    · rw [overrideStage_names]
  · intro hmanaged
    have hmap : out.Spec.Template.Spec.Containers =
        dep.Spec.Template.Spec.Containers.map (fun c =>
          { Name := c.Name
            Env := (quay.GetEnvOverrideForComponent
              (labelsGet dep.ObjectMeta.Annotations "quay-component")).foldl upsertEnv c.Env
            Resources := if skipres then noresources else c.Resources }) := by
      rw [hcontainers, overrideStage_containers, if_pos hmanaged, overrideEnv_eq_map]
      cases skipres with
      | true => simp [trimResources, List.map_map, Function.comp_def]
      | false => simp
    rw [hmap, List.forall₂_map_right_iff, List.forall₂_same]
    intro c _
    refine ⟨rfl, ?_, ?_⟩
    · intro n ov hlast
      have hfind := find_foldl_upsertEnv _ c.Env n ov hlast
      exact ⟨List.mem_of_find?_eq_some hfind, hfind⟩
    · apply filter_foldl_upsertEnv (fun name => decide (name ∉
        (quay.GetEnvOverrideForComponent
          (labelsGet dep.ObjectMeta.Annotations "quay-component")).map EnvVar.Name))
      intro o ho
      simp only [decide_eq_false_iff_not, not_not]
      exact List.mem_map_of_mem _ ho
  · intro hunmanaged
    rw [hcontainers, overrideStage_containers, hunmanaged]
    cases skipres with
    | true => simp [trimResources_env]
    | false => simp

theorem Process_env_override_witness :
    (Process nullYAML depSuffixes envQuay (Object.Deployment (quayAppDeployment none))
        false).ret =
        Outcome.ok (Object.Deployment (overriddenDeployment appContainer.Resources)) ∧
      ∃ out : Deployment,
        (Process nullYAML depSuffixes envQuay (Object.Deployment (quayAppDeployment none))
            false).obj = Object.Deployment out ∧
          (∀ o, (Process nullYAML depSuffixes envQuay
              (Object.Deployment (quayAppDeployment none)) false).ret = Outcome.ok o →
            o = Object.Deployment out) ∧
          out.Spec.Template.Spec.Containers.length =
            (quayAppDeployment none).Spec.Template.Spec.Containers.length ∧
          (envQuay.ComponentIsManaged
              (labelsGet (quayAppDeployment none).ObjectMeta.Annotations "quay-component") =
              true →
            List.Forall₂
              (fun c c' => c'.Name = c.Name ∧
                (∀ n ov, lastOverride (envQuay.GetEnvOverrideForComponent
                    (labelsGet (quayAppDeployment none).ObjectMeta.Annotations
                      "quay-component")) n = some ov →
                  ov ∈ c'.Env ∧ c'.Env.find? (fun e => e.Name = n) = some ov) ∧
                c'.Env.filter (fun e => decide (e.Name ∉ (envQuay.GetEnvOverrideForComponent
                    (labelsGet (quayAppDeployment none).ObjectMeta.Annotations
                      "quay-component")).map EnvVar.Name)) =
                  c.Env.filter (fun e => decide (e.Name ∉ (envQuay.GetEnvOverrideForComponent
                    (labelsGet (quayAppDeployment none).ObjectMeta.Annotations
                      "quay-component")).map EnvVar.Name)))
              (quayAppDeployment none).Spec.Template.Spec.Containers
              out.Spec.Template.Spec.Containers) ∧
          (envQuay.ComponentIsManaged
              (labelsGet (quayAppDeployment none).ObjectMeta.Annotations "quay-component") =
              false →
            out.Spec.Template.Spec.Containers.map Container.Env =
              (quayAppDeployment none).Spec.Template.Spec.Containers.map Container.Env) :=
  ⟨by decide,
    Process_env_override nullYAML depSuffixes envQuay (quayAppDeployment none) false
      (by decide)⟩

/-! ## Idempotence -/

theorem upsertEnv_absorb (env : List EnvVar) (a b : EnvVar) (hab : a.Name = b.Name) :
    upsertEnv (upsertEnv env a) b = upsertEnv env b := by
  induction env with
  | nil => simp [upsertEnv, hab]
  | cons x rest ih =>
    by_cases hx : x.Name = a.Name
    · have hxb : x.Name = b.Name := hx.trans hab
      simp [upsertEnv, hx, hxb, hab]
    · have hxb : ¬ x.Name = b.Name := fun h => hx (h.trans hab.symm)
      simp [upsertEnv, hx, hxb, ih]

theorem upsertEnv_comm (env : List EnvVar) (a b : EnvVar) (hab : a.Name ≠ b.Name)
    (hpresent : ∃ e ∈ env, e.Name = a.Name) :
    upsertEnv (upsertEnv env a) b = upsertEnv (upsertEnv env b) a := by
  induction env with
  | nil =>
    obtain ⟨e, he, -⟩ := hpresent
    exact absurd he (List.not_mem_nil e)
  | cons x rest ih =>
    by_cases hx : x.Name = a.Name
    · have hxb : ¬ x.Name = b.Name := fun h => hab (hx.symm.trans h)
      simp [upsertEnv, hx, hxb, hab]
    · have hrest : ∃ e ∈ rest, e.Name = a.Name := by
        obtain ⟨e, he, hname⟩ := hpresent
        rcases List.mem_cons.1 he with rfl | he
        · exact absurd hname hx
        · exact ⟨e, he, hname⟩
      by_cases hxb : x.Name = b.Name
      · simp [upsertEnv, hx, hxb, Ne.symm hab]
      · simp [upsertEnv, hx, hxb, ih hrest]

theorem upsertEnv_present (env : List EnvVar) (v : EnvVar) (n : String)
    (hpresent : ∃ e ∈ env, e.Name = n) : ∃ e ∈ upsertEnv env v, e.Name = n := by
  induction env with
  | nil =>
    obtain ⟨e, he, -⟩ := hpresent
    exact absurd he (List.not_mem_nil e)
  | cons x rest ih =>
    obtain ⟨e, he, hname⟩ := hpresent
    by_cases hx : x.Name = v.Name
    · rw [upsertEnv, if_neg (not_not.2 hx)]
      rcases List.mem_cons.1 he with rfl | he
      · exact ⟨v, List.mem_cons_self _ _, hx.symm.trans hname⟩
      · exact ⟨e, List.mem_cons_of_mem _ he, hname⟩
    · rw [upsertEnv, if_pos hx]
      rcases List.mem_cons.1 he with rfl | he
      · exact ⟨e, List.mem_cons_self _ _, hname⟩
      · obtain ⟨e', he', hname'⟩ := ih ⟨e, he, hname⟩
        exact ⟨e', List.mem_cons_of_mem _ he', hname'⟩

theorem foldl_upsertEnv_absorb (rest : List EnvVar) (env : List EnvVar) (v : EnvVar)
    (hpresent : ∃ e ∈ env, e.Name = v.Name) (hlater : ∃ r ∈ rest, r.Name = v.Name) :
    rest.foldl upsertEnv (upsertEnv env v) = rest.foldl upsertEnv env := by
  induction rest generalizing env with
  | nil =>
    obtain ⟨r, hr, -⟩ := hlater
    exact absurd hr (List.not_mem_nil r)
  | cons r rest ih =>
    rw [List.foldl_cons, List.foldl_cons]
    by_cases hr : v.Name = r.Name
    · rw [upsertEnv_absorb env v r hr]
    · have hrest : ∃ x ∈ rest, x.Name = v.Name := by
        obtain ⟨x, hx, hname⟩ := hlater
        rcases List.mem_cons.1 hx with rfl | hx
        · exact absurd hname.symm hr
        · exact ⟨x, hx, hname⟩
      rw [upsertEnv_comm env v r hr hpresent]
      exact ih (upsertEnv env r) (upsertEnv_present env r v.Name hpresent) hrest

theorem upsertEnv_of_find (env : List EnvVar) (v : EnvVar)
    (hfind : env.find? (fun e => e.Name = v.Name) = some v) : upsertEnv env v = env := by
  induction env with
  | nil => simp at hfind
  | cons x rest ih =>
    by_cases hx : x.Name = v.Name
    · simp only [List.find?_cons, hx, decide_True, Option.some.injEq] at hfind
      rw [upsertEnv, if_neg (not_not.2 hx), hfind]
    · simp only [List.find?_cons, hx, decide_False] at hfind
      rw [upsertEnv, if_pos hx, ih hfind]

theorem lastOverride_cons_of_mem (o x : EnvVar) (rest : List EnvVar) (hx : x ∈ rest) :
    lastOverride (o :: rest) x.Name = lastOverride rest x.Name := by
  rw [lastOverride_cons]
  cases h : lastOverride rest x.Name with
  | some y => rfl
  | none =>
    rw [lastOverride_eq_none] at h
    exact absurd rfl (h x hx)

theorem foldl_upsertEnv_fixed (overrides : List EnvVar) (env : List EnvVar)
    (hlast : ∀ o ∈ overrides,
      env.find? (fun e => e.Name = o.Name) = lastOverride overrides o.Name) :
    overrides.foldl upsertEnv env = env := by
  induction overrides generalizing env with
  | nil => rfl
  | cons o rest ih =>
    have hrest : ∀ x ∈ rest, env.find? (fun e => e.Name = x.Name) =
        lastOverride rest x.Name := by
      intro x hx
      rw [hlast x (List.mem_cons_of_mem _ hx), lastOverride_cons_of_mem o x rest hx]
    have ho := hlast o (List.mem_cons_self _ _)
    rw [lastOverride_cons] at ho
    rw [List.foldl_cons]
    cases hlater : lastOverride rest o.Name with
    | none =>
      rw [hlater] at ho
      simp only [if_true] at ho
      rw [upsertEnv_of_find env o ho]
      exact ih env hrest
    | some y =>
      rw [hlater] at ho
      have hpresent : ∃ e ∈ env, e.Name = o.Name :=
        ⟨y, List.mem_of_find?_eq_some ho, by simpa using List.find?_some ho⟩
      have hin : ∃ r ∈ rest, r.Name = o.Name := by
        by_contra hcon
        push_neg at hcon
        rw [(lastOverride_eq_none rest o.Name).2 hcon] at hlater
        exact absurd hlater (by simp)
      rw [foldl_upsertEnv_absorb rest env o hpresent hin]
      exact ih env hrest

theorem find_foldl_upsertEnv_of_mem (overrides : List EnvVar) (env : List EnvVar)
    (o : EnvVar) (ho : o ∈ overrides) :
    (overrides.foldl upsertEnv env).find? (fun e => e.Name = o.Name) =
      lastOverride overrides o.Name := by
  cases hlast : lastOverride overrides o.Name with
  | none =>
    rw [lastOverride_eq_none] at hlast
    exact absurd rfl (hlast o ho)
  | some y => exact find_foldl_upsertEnv overrides env o.Name y hlast

theorem overrideEnv_fixed (overrides : List EnvVar) (containers : List Container)
    (hlast : ∀ c ∈ containers, ∀ o ∈ overrides,
      c.Env.find? (fun e => e.Name = o.Name) = lastOverride overrides o.Name) :
    overrideEnv overrides containers = containers := by
  rw [overrideEnv_eq_map]
  conv_rhs => rw [← List.map_id containers]
  apply List.map_congr_left
  intro c hc
  rw [foldl_upsertEnv_fixed overrides c.Env (hlast c hc)]
  rfl

theorem trimResources_idem (containers : List Container) :
    trimResources (trimResources containers) = trimResources containers := by
  simp [trimResources, List.map_map, Function.comp_def]

theorem replicasStage_fixed (order₁ order₂ : List (ComponentKind × String))
    (quay : QuayRegistry) (dep d : Deployment)
    (h₁ : order₁.Perm depSuffixes) (h₂ : order₂.Perm depSuffixes)
    (hmeta : d.ObjectMeta = dep.ObjectMeta)
    (hreplicas : d.Spec.Replicas = (replicasStage order₁ quay dep).Spec.Replicas) :
    replicasStage order₂ quay d = d := by
  unfold replicasStage at hreplicas ⊢
  cases hhpa : quay.ComponentIsManaged ComponentHPA with
  | true => simp
  | false =>
    simp only [hhpa, Bool.not_false, if_true] at hreplicas ⊢
    rw [replicasLoop_eq_chosen] at hreplicas ⊢
    rw [hmeta, chosenComponent_perm dep.ObjectMeta.Name order₂ order₁ h₂ h₁]
    cases hchosen : chosenComponent dep.ObjectMeta.Name order₁ with
    | none => rfl
    | some kind =>
      simp only [hchosen] at hreplicas
      have hset : d.Spec.Replicas ≠ none := by
        rw [hreplicas]
        split_ifs with hdep
        · exact hdep
        · simp
      simp only [hset, ne_eq, not_false_eq_true, if_true]

theorem GoMap.delete_of_absent {β : Type} (m : GoMap β) (k : String)
    (habsent : ∀ kv ∈ m.toList, kv.1 ≠ k) : m.delete k = m := by
  cases m with
  | nil => rfl
  | entries l =>
    simp only [GoMap.delete, GoMap.entries.injEq, List.filter_eq_self]
    intro kv hkv
    simpa using habsent kv hkv

theorem annotationStage_idem (quay : QuayRegistry) (dep d : Deployment)
    (hret : (annotationStage quay dep).ret = Outcome.ok (Object.Deployment d)) :
    annotationStage quay d =
      { obj := Object.Deployment d, ret := Outcome.ok (Object.Deployment d) } := by
  unfold annotationStage at hret
  split_ifs at hret with hdatabase heditor
  · simp only [Outcome.ok.injEq, Object.Deployment.injEq] at hret
    subst hret
    have habsent : ∀ k, (k = "quay-registry-hostname" ∨ k = "quay-buildmanager-hostname" ∨
        k = "quay-operator-service-endpoint") →
        ∀ kv ∈ (((dep.Spec.Template.Annotations.delete "quay-registry-hostname").delete
          "quay-buildmanager-hostname").delete "quay-operator-service-endpoint").toList,
          kv.1 ≠ k := by
      intro k hk kv hkv
      simp only [GoMap.mem_toList_delete] at hkv
      rcases hk with rfl | rfl | rfl
      · exact hkv.1.1.2
      · exact hkv.1.2
      · exact hkv.2
    simp only [annotationStage, Deployment.withTemplateAnnotations, hdatabase, if_true]
    rw [GoMap.delete_of_absent _ "quay-registry-hostname" (habsent _ (Or.inl rfl)),
      GoMap.delete_of_absent _ "quay-buildmanager-hostname" (habsent _ (Or.inr (Or.inl rfl))),
      GoMap.delete_of_absent _ "quay-operator-service-endpoint"
        (habsent _ (Or.inr (Or.inr rfl)))]
  · simp only [Outcome.ok.injEq, Object.Deployment.injEq] at hret
    subst hret
    simp [annotationStage, hdatabase, heditor]
  · cases hfg : quay.FieldGroupNamesForManagedComponents with
    | error err => simp [hfg] at hret
    | ok fgns =>
      cases hann : dep.Spec.Template.Annotations with
      | nil => simp [hfg, hann, GoMap.set] at hret
      | entries l =>
        simp only [hfg, hann, GoMap.set, Outcome.ok.injEq, Object.Deployment.injEq] at hret
        subst hret
        simp [annotationStage, Deployment.withTemplateAnnotations, hdatabase, heditor, hfg,
          GoMap.set, setEntry_setEntry]

theorem staged_fixed (order₁ order₂ : List (ComponentKind × String)) (quay : QuayRegistry)
    (dep d : Deployment) (skipres : Bool)
    (h₁ : order₁.Perm depSuffixes) (h₂ : order₂.Perm depSuffixes)
    (hmeta : d.ObjectMeta = dep.ObjectMeta)
    (hreplicas : d.Spec.Replicas =
      (trimStage skipres (replicasStage order₁ quay (overrideStage quay dep))).Spec.Replicas)
    (hspec : d.Spec.Template.Spec =
      (trimStage skipres (replicasStage order₁ quay
        (overrideStage quay dep))).Spec.Template.Spec) :
    trimStage skipres (replicasStage order₂ quay (overrideStage quay d)) = d := by
  have hcontainers : d.Spec.Template.Spec.Containers =
      if skipres then trimResources (overrideStage quay dep).Spec.Template.Spec.Containers
      else (overrideStage quay dep).Spec.Template.Spec.Containers := by
    rw [hspec, staged_containers]
  have hoverride : overrideStage quay d = d := by
    simp only [overrideStage]
    split_ifs with hmanaged
    · rw [hmeta] at hmanaged
      have hfixed : overrideEnv (quay.GetEnvOverrideForComponent
          (labelsGet d.ObjectMeta.Annotations "quay-component"))
          d.Spec.Template.Spec.Containers = d.Spec.Template.Spec.Containers := by
        apply overrideEnv_fixed
        intro c hc o ho
        rw [hmeta] at ho ⊢
        rw [hcontainers, overrideStage_containers, if_pos hmanaged, overrideEnv_eq_map] at hc
        cases skipres with
        | true =>
          simp only [if_true, trimResources, List.map_map, List.mem_map,
            Function.comp_apply] at hc
          obtain ⟨c0, -, rfl⟩ := hc
          exact find_foldl_upsertEnv_of_mem _ c0.Env o ho
        | false =>
          simp only [Bool.false_eq_true, if_false, List.mem_map] at hc
          obtain ⟨c0, -, rfl⟩ := hc
          exact find_foldl_upsertEnv_of_mem _ c0.Env o ho
      rw [hfixed]
      rfl
    · rfl
  have hreplicasStage : replicasStage order₂ quay d = d := by
    apply replicasStage_fixed order₁ order₂ quay (overrideStage quay dep) d h₁ h₂
    · rw [hmeta, overrideStage_objectMeta]
    · rw [hreplicas, trimStage_replicas]
  rw [hoverride, hreplicasStage]
  cases skipres with
  | false => simp [trimStage]
  | true =>
    simp only [if_true] at hcontainers
    have htrim : trimResources d.Spec.Template.Spec.Containers =
        d.Spec.Template.Spec.Containers := by
      rw [hcontainers, trimResources_idem]
    simp only [trimStage, if_true, PodTemplateSpec.withContainers, htrim]

theorem processVolumeClaim_idem (quay : QuayRegistry) (quayComponentLabel : String)
    (pvc out : PersistentVolumeClaim)
    (hret : (processVolumeClaim quay quayComponentLabel pvc).ret =
      Outcome.ok (Object.PersistentVolumeClaim out)) :
    processVolumeClaim quay quayComponentLabel out =
      { obj := Object.PersistentVolumeClaim out
        ret := Outcome.ok (Object.PersistentVolumeClaim out) } := by
  simp only [processVolumeClaim] at hret ⊢
  generalize (if quayComponentLabel = "postgres" then
      quay.GetVolumeSizeOverrideForComponent ComponentPostgres
    else if quayComponentLabel = "clair-postgres" then
      quay.GetVolumeSizeOverrideForComponent ComponentClair
    else none) = resolved at hret ⊢
  cases resolved with
  | none =>
    simp only [Outcome.ok.injEq, Object.PersistentVolumeClaim.injEq] at hret
    subst hret
    rfl
  | some override =>
    simp only at hret ⊢
    generalize hshrinks : (match ResourceList.Storage pvc.Spec.Resources.Requests with
      | some current => if override.Cmp current = -1 then some current else none
      | none => none) = shrinks at hret
    cases shrinks with
    | some current => simp at hret
    | none =>
      simp only [Outcome.ok.injEq, Object.PersistentVolumeClaim.injEq] at hret
      subst hret
      have hcmp : ¬ override.Cmp override = -1 := by
        rw [Cmp_eq_neg_one]
        exact lt_irrefl _
      simp [ResourceList.Storage, GoMap.lookup, GoMap.toList, hcmp]

theorem trimJob_idem (job : Job) : trimJob (trimJob job) = trimJob job := by
  simp [trimJob, PodTemplateSpec.withContainers, trimResources_idem]

theorem processRoute_idem (quay : QuayRegistry) (quayComponentLabel : String)
    (rt out : Route)
    (hret : (processRoute quay quayComponentLabel rt).ret = Outcome.ok (Object.Route out)) :
    processRoute quay quayComponentLabel out =
      { obj := Object.Route out, ret := Outcome.ok (Object.Route out) } := by
  unfold processRoute at hret ⊢
  split_ifs at hret ⊢ <;>
    · simp only [Outcome.ok.injEq, Object.Route.injEq] at hret
      subst hret
      rfl

/-- C20. `Process` is idempotent on non-secret objects: for every intent, every trim flag,
any two orders in which the suffix table can be visited, and every object whose name does
not contain `quay-config-secret-` (a Deployment, PersistentVolumeClaim, Job or Route, and
the kinds without a rule as well), if `Process` returns an object then `Process` on that
object succeeds, returns that same object and leaves it as it is. -/
theorem Process_idempotent {V : Type} (yaml : YAML V)
    (order₁ order₂ : List (ComponentKind × String)) (quay : QuayRegistry) (obj o : Object)
    (skipres : Bool)
    (h₁ : order₁.Perm depSuffixes) (h₂ : order₂.Perm depSuffixes)
    (hname : Contains obj.objectMeta.Name "quay-config-secret-" = false)
    (hret : (Process yaml order₁ quay obj skipres).ret = Outcome.ok o) :
    (Process yaml order₂ quay o skipres).ret = Outcome.ok o ∧
      (Process yaml order₂ quay o skipres).obj = o := by
  cases obj with
  | Secret s =>
    rw [Process_unmatched_of_name yaml order₁ quay (Object.Secret s) skipres (Or.inr rfl)
      hname] at hret
    simp only [Outcome.ok.injEq] at hret
    subst hret
    rw [Process_unmatched_of_name yaml order₂ quay (Object.Secret s) skipres (Or.inr rfl)
      hname]
    exact ⟨rfl, rfl⟩
  | Other m =>
    rw [Process_unmatched_of_name yaml order₁ quay (Object.Other m) skipres (Or.inl rfl)
      hname] at hret
    simp only [Outcome.ok.injEq] at hret
    subst hret
    rw [Process_unmatched_of_name yaml order₂ quay (Object.Other m) skipres (Or.inl rfl)
      hname]
    exact ⟨rfl, rfl⟩
  | Deployment dep =>
    simp only [Object.objectMeta] at hname
    rw [Process_deployment yaml order₁ quay dep skipres hname] at hret
    obtain ⟨d, hd, -, hmeta, hreplicas, hspec⟩ := annotationStage_ret_ok quay _ o hret
    subst hd
    rw [staged_objectMeta] at hmeta
    have hname' : Contains d.ObjectMeta.Name "quay-config-secret-" = false := by
      rw [hmeta]
      exact hname
    rw [Process_deployment yaml order₂ quay d skipres hname']
    unfold processDeployment at hret ⊢
    rw [staged_fixed order₁ order₂ quay dep d skipres h₁ h₂ hmeta hreplicas hspec,
      annotationStage_idem quay _ d hret]
    exact ⟨rfl, rfl⟩
  | PersistentVolumeClaim pvc =>
    simp only [Object.objectMeta] at hname
    rw [Process_volumeClaim yaml order₁ quay pvc skipres hname] at hret
    obtain ⟨out, hout, -, hmeta⟩ := processVolumeClaim_ret_ok quay _ pvc o hret
    subst hout
    have hname' : Contains out.ObjectMeta.Name "quay-config-secret-" = false := by
      rw [hmeta]
      exact hname
    rw [Process_volumeClaim yaml order₂ quay out skipres hname', hmeta,
      processVolumeClaim_idem quay _ pvc out hret]
    exact ⟨rfl, rfl⟩
  | Job job =>
    simp only [Object.objectMeta] at hname
    rw [Process_job yaml order₁ quay job skipres hname] at hret
    cases skipres with
    | true =>
      simp only [if_true, Outcome.ok.injEq] at hret
      subst hret
      rw [Process_job yaml order₂ quay (trimJob job) true hname]
      simp [trimJob_idem]
    | false =>
      simp only [Bool.false_eq_true, if_false, Outcome.ok.injEq] at hret
      subst hret
      rw [Process_job yaml order₂ quay job false hname]
      simp
  | Route rt =>
    simp only [Object.objectMeta] at hname
    rw [Process_route yaml order₁ quay rt skipres hname] at hret
    have hout : ∃ out : Route, o = Object.Route out ∧ out.ObjectMeta = rt.ObjectMeta := by
      unfold processRoute at hret
      split_ifs at hret <;>
        · simp only [Outcome.ok.injEq] at hret
          exact ⟨_, hret.symm, rfl⟩
    obtain ⟨out, rfl, hmeta⟩ := hout
    have hname' : Contains out.ObjectMeta.Name "quay-config-secret-" = false := by
      rw [hmeta]
      exact hname
    rw [Process_route yaml order₂ quay out skipres hname', hmeta,
      processRoute_idem quay _ rt out hret]
    exact ⟨rfl, rfl⟩

theorem Process_idempotent_witness :
    (Process nullYAML depSuffixes envQuay (Object.Deployment (quayAppDeployment none))
        true).ret = Outcome.ok (Object.Deployment (overriddenDeployment noresources)) ∧
      ((Process nullYAML depSuffixes.reverse envQuay
          (Object.Deployment (overriddenDeployment noresources)) true).ret =
          Outcome.ok (Object.Deployment (overriddenDeployment noresources)) ∧
        (Process nullYAML depSuffixes.reverse envQuay
          (Object.Deployment (overriddenDeployment noresources)) true).obj =
          Object.Deployment (overriddenDeployment noresources)) :=
  ⟨by decide,
    Process_idempotent nullYAML depSuffixes depSuffixes.reverse envQuay
      (Object.Deployment (quayAppDeployment none))
      (Object.Deployment (overriddenDeployment noresources)) true (List.Perm.refl _)
      (List.reverse_perm _) (by decide) (by decide)⟩

end Middleware
